import Mathlib

/-!
Verification of the `relate` repository: a bidirectional, cardinality-constrained
relation (`src/relate.py`, class `Relation`).

The Python class keeps two mutable dictionaries, `forward` and `inverse`, each
mapping a key to a mutable set of keys.  Because several spec claims are about
object identity (inversion aliases the two dictionaries, `copy` shares the
nested set objects), we embed the code over an explicit heap: dictionary
objects and set objects live in two stores addressed by natural-number
references, and a `Relation` value holds the references of its two
dictionaries, exactly like the Python object holds pointers to its containers.

Keys are modelled as `Nat`.  Python dictionaries are modelled as association
lists (key, set-reference) in insertion order; Python sets as `Finset Nat`.
A Python operation that raises an exception is modelled as returning `none`
(respectively `Except.error` carrying the untouched heap).
-/

namespace Relate

abbrev Key := Nat

/-- The four cardinality tokens `'1:1','1:M','M:1','M:N'` of
`Relation.CARDINALITIES`.  An invalid-cardinality construction raises
`RelationError` in Python; the inductive type makes only the four valid
tokens representable. -/
inductive Card
  | oneOne
  | oneMany
  | manyOne
  | manyMany
deriving DecidableEq, Repr

/-- `Relation.INVERTED_CARDINALITY`: map each cardinality to its inverse. -/
def INVERTED_CARDINALITY : Card → Card
  | .oneOne => .oneOne
  | .oneMany => .manyOne
  | .manyOne => .oneMany
  | .manyMany => .manyMany

/-- A Python dictionary object: `ordered` records whether it is an
`OrderedDict` (`Relation.isordered` tests the container type with
`isinstance`), `entries` the key/value pairs in insertion order.  The values
are references into the set store, since dictionary values are mutable `set`
objects in the source. -/
structure Dict where
  ordered : Bool
  entries : List (Key × Nat)
deriving DecidableEq, Repr

/-- The heap: a store of dictionary objects, a store of set objects, and a
fresh-reference counter.  Allocation hands out `fresh` and increments it. -/
structure Heap where
  dicts : Nat → Dict
  sets : Nat → Finset Key
  fresh : Nat

/-- Overwrite the set object at reference `r`. -/
def Heap.setSet (h : Heap) (r : Nat) (s : Finset Key) : Heap :=
  { h with sets := Function.update h.sets r s }

/-- Overwrite the dictionary object at reference `r`. -/
def Heap.setDict (h : Heap) (r : Nat) (d : Dict) : Heap :=
  { h with dicts := Function.update h.dicts r d }

/-- Allocate a fresh empty dictionary (`{}` or `OrderedDict()` per `flag`). -/
def Heap.allocDict (h : Heap) (flag : Bool) : Heap × Nat :=
  ({ dicts := Function.update h.dicts h.fresh ⟨flag, []⟩,
     sets := h.sets, fresh := h.fresh + 1 }, h.fresh)

/-- Allocate a fresh set object with contents `s`. -/
def Heap.allocSet (h : Heap) (s : Finset Key) : Heap × Nat :=
  ({ dicts := h.dicts,
     sets := Function.update h.sets h.fresh s, fresh := h.fresh + 1 }, h.fresh)

/-- Association-list lookup, the model of `d[k]` / `k in d` on a dictionary. -/
def dlookup : List (Key × Nat) → Key → Option Nat
  | [], _ => none
  | (k, s) :: rest, key => if key = k then some s else dlookup rest key

/-- `k in d` on the dictionary object at `dref`. -/
def Heap.dictLookup (h : Heap) (dref : Nat) (k : Key) : Option Nat :=
  dlookup (h.dicts dref).entries k

/-- Boolean membership test `k in d`. -/
def Heap.dictMem (h : Heap) (dref : Nat) (k : Key) : Bool :=
  (h.dictLookup dref k).isSome

/-- `del d[k]` on the dictionary object at `dref` (the key is assumed
present; `delitem` below models the `KeyError` on an absent key). -/
def Heap.dictErase (h : Heap) (dref : Nat) (k : Key) : Heap :=
  h.setDict dref ⟨(h.dicts dref).ordered,
    (h.dicts dref).entries.eraseP (fun p => p.1 == k)⟩

/-- `d[k] = v` for a key known to be absent: dictionaries append new keys in
insertion order. -/
def Heap.dictAppend (h : Heap) (dref : Nat) (k : Key) (sref : Nat) : Heap :=
  h.setDict dref ⟨(h.dicts dref).ordered,
    (h.dicts dref).entries ++ [(k, sref)]⟩

/-- The `Relation` object: references to its `forward` and `inverse`
dictionaries plus its `cardinality` field. -/
structure Relation where
  forwardRef : Nat
  inverseRef : Nat
  cardinality : Card
deriving DecidableEq, Repr

/-- `Relation.__init__(init=None, cardinality, ordered)`: allocate the two
index dictionaries (plain or ordered per `ordered`) and store the
cardinality.  Seeding from `init` runs the standard insertion per pair and is
modelled by a subsequent `extend`-style operation. -/
def mkRelation (h : Heap) (card : Card) (flag : Bool) : Heap × Relation :=
  let fa := h.allocDict flag
  let ia := fa.1.allocDict flag
  (ia.1, ⟨fa.2, ia.2, card⟩)

/-- `Relation.isordered`: `isinstance(self.forward, OrderedDict)`. -/
def isordered (h : Heap) (r : Relation) : Bool :=
  (h.dicts r.forwardRef).ordered

/-- `Relation.__invert__`: build a fresh `Relation` with the inverted
cardinality (its two just-allocated dictionaries become garbage), then alias
`new.inverse = self.forward` and `new.forward = self.inverse`. -/
def invert (h : Heap) (r : Relation) : Heap × Relation :=
  let na := mkRelation h (INVERTED_CARDINALITY r.cardinality) false
  (na.1, { na.2 with forwardRef := r.inverseRef, inverseRef := r.forwardRef })

/-- One iteration step list of `Relation._remove`: walk the captured
`mapping.items()`, remove `reference` from each value set that contains it
(mutating the set object in place), and collect the keys whose value set is
now empty.  Returns the heap after the set mutations and the `empty` list. -/
def removePass (h : Heap) (reference : Key) : List (Key × Nat) → Heap × List Key
  | [] => (h, [])
  | (k, sref) :: rest =>
    let h1 := if reference ∈ h.sets sref
              then h.setSet sref ((h.sets sref).erase reference) else h
    let marked : List Key := if h1.sets sref = ∅ then [k] else []
    let hr := removePass h1 reference rest
    (hr.1, marked ++ hr.2)

/-- `Relation._remove(mapping, reference)`: strip `reference` out of every
value set of the dictionary at `dref`, then delete the keys marked empty. -/
def removeReference (h : Heap) (dref : Nat) (reference : Key) : Heap :=
  let hr := removePass h reference (h.dicts dref).entries
  hr.2.foldl (fun hh e => hh.dictErase dref e) hr.1

/-- `Relation._remove_domain(key)` in the case where the key is present:
`del self.forward[key]` followed by `Relation._remove(self.inverse, key)`.
(The `KeyError` of `del` on an absent key is modelled by `delitem`.) -/
def removeDomain (h : Heap) (r : Relation) (k : Key) : Heap :=
  removeReference (h.dictErase r.forwardRef k) r.inverseRef k

/-- `Relation._remove_range(key)` in the case where the key is present:
`del self.inverse[key]` followed by `Relation._remove(self.forward, key)`. -/
def removeRange (h : Heap) (r : Relation) (k : Key) : Heap :=
  removeReference (h.dictErase r.inverseRef k) r.forwardRef k

/-- `Relation.__delitem__` (alias of `_remove_domain`): raises `KeyError`
(modelled as `none`) when the key is absent from `forward`; the raise happens
at `del self.forward[key]`, before any mutation. -/
def delitem (h : Heap) (r : Relation) (k : Key) : Option Heap :=
  match h.dictLookup r.forwardRef k with
  | none => none
  | some _ => some (removeDomain h r k)

/-- Public removal by range key, `_remove_range` with the `KeyError` of
`del self.inverse[key]` made explicit. -/
def delRangeItem (h : Heap) (r : Relation) (k : Key) : Option Heap :=
  match h.dictLookup r.inverseRef k with
  | none => none
  | some _ => some (removeRange h r k)

/-- `d.setdefault(k, set())`: return the reference of the value set at `k`,
allocating and appending a fresh empty set when the key is absent. -/
def setdefaultRef (h : Heap) (dref : Nat) (k : Key) : Heap × Nat :=
  match h.dictLookup dref k with
  | some s => (h, s)
  | none =>
    let sa := h.allocSet ∅
    (sa.1.dictAppend dref k sa.2, sa.2)

/-- `s.add(v)` on the set object at `sref`. -/
def setAdd (h : Heap) (sref : Nat) (v : Key) : Heap :=
  h.setSet sref (insert v (h.sets sref))

/-- The write phase of `Relation.__setitem__` for one `(d, t)` pair:
`self.forward.setdefault(d,set()).add(t)` then
`self.inverse.setdefault(t,set()).add(d)`. -/
def insertPhase (h : Heap) (r : Relation) (d t : Key) : Heap :=
  let fa := setdefaultRef h r.forwardRef d
  let h4 := setAdd fa.1 fa.2 t
  let ia := setdefaultRef h4 r.inverseRef t
  setAdd ia.1 ia.2 d

/-- The body of `Relation.__setitem__` for one `(d, t)` pair of the Cartesian
product: evict the existing domain pairing when the cardinality is `1:1` or
`M:1` and `d` is already in `forward`; then evict the existing range pairing
when the cardinality is `1:1` or `1:M` and `t` is already in `inverse`; then
add to both indices. -/
def setPair (h : Heap) (r : Relation) (d t : Key) : Heap :=
  let h1 := if (r.cardinality = .oneOne ∨ r.cardinality = .manyOne) ∧
               h.dictMem r.forwardRef d = true
            then removeDomain h r d else h
  let h2 := if (r.cardinality = .oneOne ∨ r.cardinality = .oneMany) ∧
               h1.dictMem r.inverseRef t = true
            then removeRange h1 r t else h1
  insertPhase h2 r d t

/-- A scalar-or-set argument of `Relation.__setitem__`: a non-set argument is
wrapped into a one-element list, a set argument is iterated (its iteration
order modelled by the list order). -/
inductive SetArg
  | one (k : Key)
  | setOf (ks : List Key)

def SetArg.toList : SetArg → List Key
  | .one k => [k]
  | .setOf ks => ks

/-- `Relation.__setitem__(domain, target)`: nested loops
`for d in domain: for t in target:` over the normalized arguments, running
the per-pair body. -/
def setitem (h : Heap) (r : Relation) (domain target : SetArg) : Heap :=
  domain.toList.foldl
    (fun hh d => target.toList.foldl (fun hh2 t => setPair hh2 r d t) hh) h

/-- Result of `Relation.__getitem__`: a single range value (`1:1`/`M:1`), the
full set (`1:M`/`M:N`), or Python's `None` when the single-value loop runs
over an empty set and falls through. -/
inductive GetResult
  | single (t : Key)
  | many (s : Finset Key)
  | noneVal
deriving DecidableEq

/-- `Relation.__getitem__(domain)`: `KeyError` (`none`) when `domain` is
absent from `forward`; for `1:1`/`M:1` return one element of the stored set
(Python returns the first element of the arbitrary set iteration order; we
model the chosen element as the minimum — the spec only promises *an*
element); for `1:M`/`M:N` return the whole set. -/
def getitem (h : Heap) (r : Relation) (domain : Key) : Option GetResult :=
  match h.dictLookup r.forwardRef domain with
  | none => none
  | some s =>
    if r.cardinality = .oneOne ∨ r.cardinality = .manyOne then
      if hne : (h.sets s).Nonempty then some (.single ((h.sets s).min' hne))
      else some .noneVal
    else some (.many (h.sets s))

/-- `Relation.copy`: construct a fresh `Relation` with the same cardinality
and ordering mode, then `r.forward.update(self.forward)` and
`r.inverse.update(self.inverse)`.  `dict.update` on the fresh empty
dictionaries copies the key/value pairs — the values are the *same* set
objects (references), a one-level copy. -/
def copy (h : Heap) (r : Relation) : Heap × Relation :=
  let ca := mkRelation h r.cardinality (isordered h r)
  let h2 := ca.1.setDict ca.2.forwardRef
    ⟨(ca.1.dicts ca.2.forwardRef).ordered, (ca.1.dicts r.forwardRef).entries⟩
  let h3 := h2.setDict ca.2.inverseRef
    ⟨(h2.dicts ca.2.inverseRef).ordered, (h2.dicts r.inverseRef).entries⟩
  (h3, ca.2)

/-- `Relation.clear`: re-run `__init__` with the current cardinality and
ordering mode, rebinding `self.forward`/`self.inverse` to fresh empty
dictionaries. -/
def clear (h : Heap) (r : Relation) : Heap × Relation :=
  mkRelation h r.cardinality (isordered h r)

/-- Argument of `Relation.extend`: either an object with mapping capability
(its key/value pairs in iteration order) or one failing the
`isinstance(mapping, Mapping)` test. -/
inductive ExtendArg
  | map (pairs : List (Key × Key))
  | notMapping

/-- `Relation.extend(mapping)`: raise `RelationError` (modelled as `.error`
carrying the untouched heap) when the argument is not a `Mapping`; otherwise
`for data in mapping: self[data] = mapping[data]` and return `self`. -/
def extend (h : Heap) (r : Relation) : ExtendArg → Except Heap (Heap × Relation)
  | .notMapping => .error h
  | .map pairs =>
    .ok (pairs.foldl (fun hh p => setitem hh r (.one p.1) (.one p.2)) h, r)

/-- The public mutating operations of claim C1. -/
inductive Op
  | setOp (domain target : SetArg)
  | delDomainOp (k : Key)
  | delRangeOp (k : Key)
  | extendMut (a : ExtendArg)
  | clearOp

/-- Run one public operation on a heap/relation state.  An operation that
raises (`KeyError` on removal of an absent key, `RelationError` on a bad
`extend` argument) leaves the state unchanged — in the source the raise
happens before any mutation. -/
def applyOp (s : Heap × Relation) : Op → Heap × Relation
  | .setOp dom tgt => (setitem s.1 s.2 dom tgt, s.2)
  | .delDomainOp k =>
    match delitem s.1 s.2 k with
    | some h => (h, s.2)
    | none => s
  | .delRangeOp k =>
    match delRangeItem s.1 s.2 k with
    | some h => (h, s.2)
    | none => s
  | .extendMut a =>
    match extend s.1 s.2 a with
    | .ok hr => hr
    | .error _ => s
  | .clearOp => clear s.1 s.2

/-- The empty heap a fresh interpreter starts from. -/
def initHeap : Heap := ⟨fun _ => ⟨false, []⟩, fun _ => ∅, 0⟩

/-- A relation constructed with cardinality `card` and ordering mode `flag`
and then mutated only through the public operations `ops`. -/
def reach (card : Card) (flag : Bool) (ops : List Op) : Heap × Relation :=
  ops.foldl applyOp (mkRelation initHeap card flag)

/-- The entry list of the `forward` dictionary. -/
def fentries (h : Heap) (r : Relation) : List (Key × Nat) :=
  (h.dicts r.forwardRef).entries

/-- The entry list of the `inverse` dictionary. -/
def ientries (h : Heap) (r : Relation) : List (Key × Nat) :=
  (h.dicts r.inverseRef).entries

/-- The contents of `forward[d]`, the empty set when `d` is absent. -/
def fval (h : Heap) (r : Relation) (d : Key) : Finset Key :=
  match dlookup (fentries h r) d with
  | some s => h.sets s
  | none => ∅

/-- The contents of `inverse[t]`, the empty set when `t` is absent. -/
def ival (h : Heap) (r : Relation) (t : Key) : Finset Key :=
  match dlookup (ientries h r) t with
  | some s => h.sets s
  | none => ∅

/-! ### Basic lemmas about the heap primitives -/

@[simp] theorem setSet_dicts (h : Heap) (r : Nat) (s : Finset Key) :
    (h.setSet r s).dicts = h.dicts := rfl

@[simp] theorem setSet_fresh (h : Heap) (r : Nat) (s : Finset Key) :
    (h.setSet r s).fresh = h.fresh := rfl

@[simp] theorem setSet_sets_self (h : Heap) (r : Nat) (s : Finset Key) :
    (h.setSet r s).sets r = s := by
  simp [Heap.setSet]

theorem setSet_sets_ne (h : Heap) {r r' : Nat} (s : Finset Key) (hne : r' ≠ r) :
    (h.setSet r s).sets r' = h.sets r' := by
  simp [Heap.setSet, Function.update_noteq hne]

@[simp] theorem setDict_sets (h : Heap) (r : Nat) (d : Dict) :
    (h.setDict r d).sets = h.sets := rfl

@[simp] theorem setDict_fresh (h : Heap) (r : Nat) (d : Dict) :
    (h.setDict r d).fresh = h.fresh := rfl

@[simp] theorem setDict_dicts_self (h : Heap) (r : Nat) (d : Dict) :
    (h.setDict r d).dicts r = d := by
  simp [Heap.setDict]

theorem setDict_dicts_ne (h : Heap) {r r' : Nat} (d : Dict) (hne : r' ≠ r) :
    (h.setDict r d).dicts r' = h.dicts r' := by
  simp [Heap.setDict, Function.update_noteq hne]

@[simp] theorem allocDict_sets (h : Heap) (flag : Bool) :
    (h.allocDict flag).1.sets = h.sets := rfl

@[simp] theorem allocDict_fresh (h : Heap) (flag : Bool) :
    (h.allocDict flag).1.fresh = h.fresh + 1 := rfl

@[simp] theorem allocDict_ref (h : Heap) (flag : Bool) :
    (h.allocDict flag).2 = h.fresh := rfl

@[simp] theorem allocDict_dicts_self (h : Heap) (flag : Bool) :
    (h.allocDict flag).1.dicts h.fresh = ⟨flag, []⟩ := by
  simp [Heap.allocDict]

theorem allocDict_dicts_ne (h : Heap) (flag : Bool) {x : Nat} (hne : x ≠ h.fresh) :
    (h.allocDict flag).1.dicts x = h.dicts x := by
  simp [Heap.allocDict, Function.update_noteq hne]

theorem allocDict_dicts_lt (h : Heap) (flag : Bool) {x : Nat} (hx : x < h.fresh) :
    (h.allocDict flag).1.dicts x = h.dicts x :=
  allocDict_dicts_ne h flag (Nat.ne_of_lt hx)

@[simp] theorem allocSet_dicts (h : Heap) (s : Finset Key) :
    (h.allocSet s).1.dicts = h.dicts := rfl

@[simp] theorem allocSet_fresh (h : Heap) (s : Finset Key) :
    (h.allocSet s).1.fresh = h.fresh + 1 := rfl

@[simp] theorem allocSet_ref (h : Heap) (s : Finset Key) :
    (h.allocSet s).2 = h.fresh := rfl

@[simp] theorem allocSet_sets_self (h : Heap) (s : Finset Key) :
    (h.allocSet s).1.sets h.fresh = s := by
  simp [Heap.allocSet]

theorem allocSet_sets_ne (h : Heap) (s : Finset Key) {x : Nat} (hne : x ≠ h.fresh) :
    (h.allocSet s).1.sets x = h.sets x := by
  simp [Heap.allocSet, Function.update_noteq hne]

theorem allocSet_sets_lt (h : Heap) (s : Finset Key) {x : Nat} (hx : x < h.fresh) :
    (h.allocSet s).1.sets x = h.sets x :=
  allocSet_sets_ne h s (Nat.ne_of_lt hx)

@[simp] theorem dictErase_sets (h : Heap) (dref : Nat) (k : Key) :
    (h.dictErase dref k).sets = h.sets := rfl

@[simp] theorem dictErase_fresh (h : Heap) (dref : Nat) (k : Key) :
    (h.dictErase dref k).fresh = h.fresh := rfl

@[simp] theorem dictErase_dicts_self (h : Heap) (dref : Nat) (k : Key) :
    (h.dictErase dref k).dicts dref =
      ⟨(h.dicts dref).ordered, (h.dicts dref).entries.eraseP (fun p => p.1 == k)⟩ := by
  simp [Heap.dictErase]

theorem dictErase_dicts_ne (h : Heap) {dref : Nat} (k : Key) {x : Nat} (hne : x ≠ dref) :
    (h.dictErase dref k).dicts x = h.dicts x :=
  setDict_dicts_ne h _ hne

@[simp] theorem dictAppend_sets (h : Heap) (dref : Nat) (k : Key) (sref : Nat) :
    (h.dictAppend dref k sref).sets = h.sets := rfl

@[simp] theorem dictAppend_fresh (h : Heap) (dref : Nat) (k : Key) (sref : Nat) :
    (h.dictAppend dref k sref).fresh = h.fresh := rfl

@[simp] theorem dictAppend_dicts_self (h : Heap) (dref : Nat) (k : Key) (sref : Nat) :
    (h.dictAppend dref k sref).dicts dref =
      ⟨(h.dicts dref).ordered, (h.dicts dref).entries ++ [(k, sref)]⟩ := by
  simp [Heap.dictAppend]

theorem dictAppend_dicts_ne (h : Heap) {dref : Nat} (k : Key) (sref : Nat)
    {x : Nat} (hne : x ≠ dref) :
    (h.dictAppend dref k sref).dicts x = h.dicts x :=
  setDict_dicts_ne h _ hne

/-! ### Lemmas about association-list lookup -/

theorem dlookup_eq_none {l : List (Key × Nat)} {k : Key} :
    dlookup l k = none ↔ k ∉ l.map Prod.fst := by
  induction l with
  | nil => simp [dlookup]
  | cons p rest ih =>
    obtain ⟨k0, s0⟩ := p
    by_cases hk : k = k0
    · subst hk; simp [dlookup]
    · simp [dlookup, hk, ih]

theorem dlookup_mem {l : List (Key × Nat)} {k : Key} {s : Nat}
    (hl : dlookup l k = some s) : (k, s) ∈ l := by
  induction l with
  | nil => simp [dlookup] at hl
  | cons p rest ih =>
    obtain ⟨k0, s0⟩ := p
    by_cases hk : k = k0
    · subst hk
      have hs : s0 = s := by simpa [dlookup] using hl
      subst hs; exact List.mem_cons_self _ _
    · simp only [dlookup, if_neg hk] at hl
      exact List.mem_cons_of_mem _ (ih hl)

theorem mem_dlookup {l : List (Key × Nat)} (hnd : (l.map Prod.fst).Nodup)
    {k : Key} {s : Nat} (hm : (k, s) ∈ l) : dlookup l k = some s := by
  induction l with
  | nil => simp at hm
  | cons p rest ih =>
    obtain ⟨k0, s0⟩ := p
    simp only [List.map_cons, List.nodup_cons] at hnd
    rcases List.mem_cons.mp hm with heq | hm'
    · cases heq
      simp [dlookup]
    · have hk : k ≠ k0 := by
        rintro rfl
        exact hnd.1 (List.mem_map.mpr ⟨(k, s), hm', rfl⟩)
      simp [dlookup, hk, ih hnd.2 hm']

theorem dlookup_append (l1 l2 : List (Key × Nat)) (k : Key) :
    dlookup (l1 ++ l2) k =
      match dlookup l1 k with
      | some s => some s
      | none => dlookup l2 k := by
  induction l1 with
  | nil => simp [dlookup]
  | cons p rest ih =>
    obtain ⟨k0, s0⟩ := p
    by_cases hk : k = k0 <;> simp [dlookup, hk, ih]

theorem dlookup_eraseP {l : List (Key × Nat)} (hnd : (l.map Prod.fst).Nodup)
    (k0 k : Key) :
    dlookup (l.eraseP (fun p => p.1 == k0)) k =
      if k = k0 then none else dlookup l k := by
  induction l with
  | nil => simp [dlookup, List.eraseP_nil]
  | cons p rest ih =>
    obtain ⟨k1, s1⟩ := p
    simp only [List.map_cons, List.nodup_cons] at hnd
    by_cases h10 : k1 = k0
    · subst h10
      rw [List.eraseP_cons_of_pos (by simp)]
      by_cases hk : k = k1
      · subst hk
        simp only [if_pos rfl]
        exact dlookup_eq_none.mpr hnd.1
      · simp [dlookup, hk]
    · rw [List.eraseP_cons_of_neg (by simp [h10])]
      by_cases hk : k = k1
      · subst hk
        simp [dlookup, if_neg h10]
      · simp [dlookup, hk, ih hnd.2]

/-! ### The cascade helper `Relation._remove` -/

theorem removePass_dicts (h : Heap) (ref : Key) (l : List (Key × Nat)) :
    (removePass h ref l).1.dicts = h.dicts := by
  induction l generalizing h with
  | nil => rfl
  | cons p rest ih =>
    obtain ⟨k0, s0⟩ := p
    rw [removePass]
    by_cases hmem : ref ∈ h.sets s0 <;> simp [hmem, ih]

theorem removePass_fresh (h : Heap) (ref : Key) (l : List (Key × Nat)) :
    (removePass h ref l).1.fresh = h.fresh := by
  induction l generalizing h with
  | nil => rfl
  | cons p rest ih =>
    obtain ⟨k0, s0⟩ := p
    rw [removePass]
    by_cases hmem : ref ∈ h.sets s0 <;> simp [hmem, ih]

theorem removePass_sets_not_mem (h : Heap) (ref : Key) {l : List (Key × Nat)}
    {s : Nat} (hs : s ∉ l.map Prod.snd) :
    (removePass h ref l).1.sets s = h.sets s := by
  induction l generalizing h with
  | nil => rfl
  | cons p rest ih =>
    obtain ⟨k0, s0⟩ := p
    simp only [List.map_cons, List.mem_cons, not_or] at hs
    rw [removePass]
    by_cases hmem : ref ∈ h.sets s0
    · simp only [if_pos hmem]
      rw [ih _ hs.2, setSet_sets_ne _ _ hs.1]
    · simp only [if_neg hmem]
      exact ih _ hs.2

theorem removePass_sets_mem (h : Heap) (ref : Key) {l : List (Key × Nat)}
    {s : Nat} (hs : s ∈ l.map Prod.snd) :
    (removePass h ref l).1.sets s = (h.sets s).erase ref := by
  induction l generalizing h with
  | nil => simp at hs
  | cons p rest ih =>
    obtain ⟨k0, s0⟩ := p
    rw [removePass]
    by_cases hmem : ref ∈ h.sets s0 <;> simp only [if_pos, if_neg, hmem, if_true, if_false]
    · by_cases hrest : s ∈ rest.map Prod.snd
      · rw [ih _ hrest]
        by_cases hss : s = s0
        · subst hss
          rw [setSet_sets_self, Finset.erase_idem]
        · rw [setSet_sets_ne _ _ hss]
      · have hss : s = s0 := by
          simp only [List.map_cons, List.mem_cons] at hs
          tauto
        subst hss
        rw [removePass_sets_not_mem _ _ hrest, setSet_sets_self]
    · by_cases hrest : s ∈ rest.map Prod.snd
      · exact ih _ hrest
      · have hss : s = s0 := by
          simp only [List.map_cons, List.mem_cons] at hs
          tauto
        subst hss
        rw [removePass_sets_not_mem _ _ hrest, Finset.erase_eq_of_not_mem hmem]

theorem removePass_marked_mem (h : Heap) (ref : Key) (l : List (Key × Nat)) (k : Key) :
    k ∈ (removePass h ref l).2 ↔ ∃ s, (k, s) ∈ l ∧ (h.sets s).erase ref = ∅ := by
  induction l generalizing h with
  | nil => simp [removePass]
  | cons p rest ih =>
    obtain ⟨k0, s0⟩ := p
    have hstep : ∀ (h1 : Heap), (∀ s', (h1.sets s').erase ref = (h.sets s').erase ref) →
        (k ∈ (removePass h1 ref rest).2 ↔
          ∃ s, (k, s) ∈ rest ∧ (h.sets s).erase ref = ∅) := by
      intro h1 hcong
      rw [ih h1]
      constructor
      · rintro ⟨s, hm, he⟩
        exact ⟨s, hm, by rw [← hcong s]; exact he⟩
      · rintro ⟨s, hm, he⟩
        exact ⟨s, hm, by rw [hcong s]; exact he⟩
    rw [removePass]
    by_cases hmem : ref ∈ h.sets s0
    · simp only [if_pos hmem, setSet_sets_self]
      have hcong : ∀ s', ((h.setSet s0 ((h.sets s0).erase ref)).sets s').erase ref =
          (h.sets s').erase ref := by
        intro s'
        by_cases hss : s' = s0
        · subst hss
          rw [setSet_sets_self, Finset.erase_idem]
        · rw [setSet_sets_ne _ _ hss]
      by_cases hemp : (h.sets s0).erase ref = ∅
      · simp only [if_pos hemp, List.cons_append, List.nil_append, List.mem_cons,
          hstep _ hcong]
        constructor
        · rintro (rfl | ⟨s, hm, he⟩)
          · exact ⟨s0, Or.inl rfl, hemp⟩
          · exact ⟨s, Or.inr hm, he⟩
        · rintro ⟨s, hm | hm', he⟩
          · exact Or.inl (congrArg Prod.fst hm)
          · exact Or.inr ⟨s, hm', he⟩
      · simp only [if_neg hemp, List.nil_append, List.mem_cons, hstep _ hcong]
        constructor
        · rintro ⟨s, hm, he⟩
          exact ⟨s, Or.inr hm, he⟩
        · rintro ⟨s, hm | hm', he⟩
          · obtain ⟨hk, hs⟩ := Prod.mk.injEq .. ▸ hm
            exact absurd (hs ▸ he) hemp
          · exact ⟨s, hm', he⟩
    · simp only [if_neg hmem]
      have hers : (h.sets s0).erase ref = h.sets s0 := Finset.erase_eq_of_not_mem hmem
      have hcong : ∀ s', ((h : Heap).sets s').erase ref = (h.sets s').erase ref :=
        fun _ => rfl
      by_cases hemp : h.sets s0 = ∅
      · have hemp' : (h.sets s0).erase ref = ∅ := by rw [hers]; exact hemp
        simp only [if_pos hemp, List.cons_append, List.nil_append, List.mem_cons,
          hstep _ hcong]
        constructor
        · rintro (rfl | ⟨s, hm, he⟩)
          · exact ⟨s0, Or.inl rfl, hemp'⟩
          · exact ⟨s, Or.inr hm, he⟩
        · rintro ⟨s, hm | hm', he⟩
          · exact Or.inl (congrArg Prod.fst hm)
          · exact Or.inr ⟨s, hm', he⟩
      · have hemp' : ¬(h.sets s0).erase ref = ∅ := by rw [hers]; exact hemp
        simp only [if_neg hemp, List.nil_append, List.mem_cons, hstep _ hcong]
        constructor
        · rintro ⟨s, hm, he⟩
          exact ⟨s, Or.inr hm, he⟩
        · rintro ⟨s, hm | hm', he⟩
          · obtain ⟨hk, hs⟩ := Prod.mk.injEq .. ▸ hm
            exact absurd (hs ▸ he) hemp'
          · exact ⟨s, hm', he⟩

/-! ### Deleting the marked keys -/

theorem foldl_dictErase_sets (dref : Nat) (ks : List Key) (h : Heap) :
    (ks.foldl (fun hh e => hh.dictErase dref e) h).sets = h.sets := by
  induction ks generalizing h with
  | nil => rfl
  | cons e rest ih => rw [List.foldl_cons, ih]; rfl

theorem foldl_dictErase_fresh (dref : Nat) (ks : List Key) (h : Heap) :
    (ks.foldl (fun hh e => hh.dictErase dref e) h).fresh = h.fresh := by
  induction ks generalizing h with
  | nil => rfl
  | cons e rest ih => rw [List.foldl_cons, ih]; rfl

theorem foldl_dictErase_dicts_ne (dref : Nat) (ks : List Key) (h : Heap)
    {x : Nat} (hne : x ≠ dref) :
    (ks.foldl (fun hh e => hh.dictErase dref e) h).dicts x = h.dicts x := by
  induction ks generalizing h with
  | nil => rfl
  | cons e rest ih => rw [List.foldl_cons, ih, dictErase_dicts_ne _ _ hne]

theorem foldl_dictErase_ordered (dref : Nat) (ks : List Key) (h : Heap) :
    ((ks.foldl (fun hh e => hh.dictErase dref e) h).dicts dref).ordered =
      (h.dicts dref).ordered := by
  induction ks generalizing h with
  | nil => rfl
  | cons e rest ih => rw [List.foldl_cons, ih, dictErase_dicts_self]

theorem foldl_dictErase_entries_sublist (dref : Nat) (ks : List Key) (h : Heap) :
    List.Sublist ((ks.foldl (fun hh e => hh.dictErase dref e) h).dicts dref).entries
      (h.dicts dref).entries := by
  induction ks generalizing h with
  | nil => exact List.Sublist.refl _
  | cons e rest ih =>
    rw [List.foldl_cons]
    exact (ih _).trans (by rw [dictErase_dicts_self]; exact List.eraseP_sublist _)

theorem foldl_dictErase_lookup (dref : Nat) (ks : List Key) (h : Heap)
    (hnd : ((h.dicts dref).entries.map Prod.fst).Nodup) (k : Key) :
    dlookup ((ks.foldl (fun hh e => hh.dictErase dref e) h).dicts dref).entries k =
      if k ∈ ks then none else dlookup (h.dicts dref).entries k := by
  induction ks generalizing h with
  | nil => simp
  | cons e rest ih =>
    rw [List.foldl_cons]
    have hnd' : (((h.dictErase dref e).dicts dref).entries.map Prod.fst).Nodup := by
      rw [dictErase_dicts_self]
      exact ((List.eraseP_sublist _).map Prod.fst).nodup hnd
    rw [ih _ hnd']
    by_cases hrest : k ∈ rest
    · simp [hrest]
    · rw [if_neg hrest, dictErase_dicts_self, dlookup_eraseP hnd]
      by_cases hke : k = e
      · subst hke
        simp
      · rw [if_neg hke, if_neg (by simp [hke, hrest])]

/-! ### The assembled `Relation._remove` -/

theorem removeReference_fresh (h : Heap) (dref : Nat) (ref : Key) :
    (removeReference h dref ref).fresh = h.fresh := by
  rw [removeReference]
  rw [foldl_dictErase_fresh, removePass_fresh]

theorem removeReference_sets_mem (h : Heap) (dref : Nat) (ref : Key)
    {s : Nat} (hs : s ∈ (h.dicts dref).entries.map Prod.snd) :
    (removeReference h dref ref).sets s = (h.sets s).erase ref := by
  rw [removeReference]
  rw [foldl_dictErase_sets, removePass_sets_mem _ _ hs]

theorem removeReference_sets_not_mem (h : Heap) (dref : Nat) (ref : Key)
    {s : Nat} (hs : s ∉ (h.dicts dref).entries.map Prod.snd) :
    (removeReference h dref ref).sets s = h.sets s := by
  rw [removeReference]
  rw [foldl_dictErase_sets, removePass_sets_not_mem _ _ hs]

theorem removeReference_dicts_ne (h : Heap) (dref : Nat) (ref : Key)
    {x : Nat} (hne : x ≠ dref) :
    (removeReference h dref ref).dicts x = h.dicts x := by
  rw [removeReference]
  rw [foldl_dictErase_dicts_ne _ _ _ hne, removePass_dicts]

theorem removeReference_ordered (h : Heap) (dref : Nat) (ref : Key) :
    ((removeReference h dref ref).dicts dref).ordered = (h.dicts dref).ordered := by
  rw [removeReference]
  rw [foldl_dictErase_ordered, removePass_dicts]

theorem removeReference_entries_sublist (h : Heap) (dref : Nat) (ref : Key) :
    List.Sublist ((removeReference h dref ref).dicts dref).entries
      (h.dicts dref).entries := by
  rw [removeReference]
  have := foldl_dictErase_entries_sublist dref
    (removePass h ref (h.dicts dref).entries).2
    (removePass h ref (h.dicts dref).entries).1
  rw [removePass_dicts] at this
  exact this

theorem removeReference_lookup (h : Heap) (dref : Nat) (ref : Key)
    (hnd : ((h.dicts dref).entries.map Prod.fst).Nodup) (k : Key) :
    dlookup ((removeReference h dref ref).dicts dref).entries k =
      match dlookup (h.dicts dref).entries k with
      | some s => if (h.sets s).erase ref = ∅ then none else some s
      | none => none := by
  rw [removeReference]
  have hl := foldl_dictErase_lookup dref
    (removePass h ref (h.dicts dref).entries).2
    (removePass h ref (h.dicts dref).entries).1
    (by rw [removePass_dicts]; exact hnd) k
  rw [removePass_dicts] at hl
  rw [hl]
  rcases hcase : dlookup (h.dicts dref).entries k with _ | s
  · simp
  · by_cases hemp : (h.sets s).erase ref = ∅
    · rw [if_pos ((removePass_marked_mem h ref _ k).mpr ⟨s, dlookup_mem hcase, hemp⟩)]
      simp [hemp]
    · rw [if_neg]
      · simp [hemp]
      intro hmem
      obtain ⟨s2, hm2, he2⟩ := (removePass_marked_mem h ref _ k).mp hmem
      rw [mem_dlookup hnd hm2] at hcase
      cases hcase
      exact hemp he2


/-! ### Views and the reachable-state invariant -/

theorem fval_of_some {h : Heap} {r : Relation} {d : Key} {s : Nat}
    (hl : dlookup (fentries h r) d = some s) : fval h r d = h.sets s := by
  rw [fval, hl]

theorem fval_of_none {h : Heap} {r : Relation} {d : Key}
    (hl : dlookup (fentries h r) d = none) : fval h r d = ∅ := by
  rw [fval, hl]

theorem ival_of_some {h : Heap} {r : Relation} {t : Key} {s : Nat}
    (hl : dlookup (ientries h r) t = some s) : ival h r t = h.sets s := by
  rw [ival, hl]

theorem ival_of_none {h : Heap} {r : Relation} {t : Key}
    (hl : dlookup (ientries h r) t = none) : ival h r t = ∅ := by
  rw [ival, hl]

/-- The strengthened invariant of a well-formed heap/relation state: the two
dictionary references are distinct allocated objects, dictionary keys are
unique, the value-set objects of the two dictionaries are pairwise distinct
allocated objects, no value set is empty, the two indices are mutual
transposes, and the `1:1`/`M:1` (resp. `1:1`/`1:M`) policies keep forward
(resp. inverse) value sets at size at most one. -/
structure WF (h : Heap) (r : Relation) : Prop where
  fneq : r.forwardRef ≠ r.inverseRef
  fref_lt : r.forwardRef < h.fresh
  iref_lt : r.inverseRef < h.fresh
  keysF : ((fentries h r).map Prod.fst).Nodup
  keysI : ((ientries h r).map Prod.fst).Nodup
  srefsND : ((fentries h r).map Prod.snd ++ (ientries h r).map Prod.snd).Nodup
  srefs_lt : ∀ s ∈ (fentries h r).map Prod.snd ++ (ientries h r).map Prod.snd,
    s < h.fresh
  nonemptyF : ∀ k s, dlookup (fentries h r) k = some s → h.sets s ≠ ∅
  nonemptyI : ∀ t s, dlookup (ientries h r) t = some s → h.sets s ≠ ∅
  transpose : ∀ d t, t ∈ fval h r d ↔ d ∈ ival h r t
  cardF : r.cardinality = .oneOne ∨ r.cardinality = .manyOne →
    ∀ d, (fval h r d).card ≤ 1
  cardI : r.cardinality = .oneOne ∨ r.cardinality = .oneMany →
    ∀ t, (ival h r t).card ≤ 1

/-- The view of a relation with the two index references exchanged and the
cardinality inverted; `_remove_range` is `_remove_domain` on this view. -/
def rswap (r : Relation) : Relation :=
  ⟨r.inverseRef, r.forwardRef, INVERTED_CARDINALITY r.cardinality⟩

theorem rswap_rswap (r : Relation) : rswap (rswap r) = r := by
  obtain ⟨f, i, c⟩ := r
  cases c <;> rfl

theorem fentries_rswap (h : Heap) (r : Relation) :
    fentries h (rswap r) = ientries h r := rfl

theorem ientries_rswap (h : Heap) (r : Relation) :
    ientries h (rswap r) = fentries h r := rfl

theorem fval_rswap (h : Heap) (r : Relation) (t : Key) :
    fval h (rswap r) t = ival h r t := rfl

theorem ival_rswap (h : Heap) (r : Relation) (d : Key) :
    ival h (rswap r) d = fval h r d := rfl

theorem removeRange_eq (h : Heap) (r : Relation) (k : Key) :
    removeRange h r k = removeDomain h (rswap r) k := rfl

theorem inv_card_cond_domain (c : Card) :
    (INVERTED_CARDINALITY c = .oneOne ∨ INVERTED_CARDINALITY c = .manyOne) ↔
      (c = .oneOne ∨ c = .oneMany) := by
  cases c <;> simp [INVERTED_CARDINALITY]

theorem inv_card_cond_range (c : Card) :
    (INVERTED_CARDINALITY c = .oneOne ∨ INVERTED_CARDINALITY c = .oneMany) ↔
      (c = .oneOne ∨ c = .manyOne) := by
  cases c <;> simp [INVERTED_CARDINALITY]

theorem WF_rswap {h : Heap} {r : Relation} (hwf : WF h r) : WF h (rswap r) where
  fneq := hwf.fneq.symm
  fref_lt := hwf.iref_lt
  iref_lt := hwf.fref_lt
  keysF := hwf.keysI
  keysI := hwf.keysF
  srefsND := List.nodup_append_comm.mp hwf.srefsND
  srefs_lt := fun s hs => hwf.srefs_lt s (by
    rcases List.mem_append.mp hs with hm | hm
    · exact List.mem_append.mpr (Or.inr hm)
    · exact List.mem_append.mpr (Or.inl hm))
  nonemptyF := hwf.nonemptyI
  nonemptyI := hwf.nonemptyF
  transpose := fun d t => (hwf.transpose t d).symm
  cardF := fun hc => hwf.cardI ((inv_card_cond_domain r.cardinality).mp hc)
  cardI := fun hc => hwf.cardF ((inv_card_cond_range r.cardinality).mp hc)

theorem WF_of_rswap {h : Heap} {r : Relation} (hwf : WF h (rswap r)) : WF h r := by
  have := WF_rswap hwf
  rwa [rswap_rswap] at this


/-! ### Effect of `_remove_domain` on a well-formed state -/

theorem removeDomain_fresh (h : Heap) (r : Relation) (d : Key) :
    (removeDomain h r d).fresh = h.fresh := by
  rw [removeDomain, removeReference_fresh]
  rfl

theorem removeDomain_fentries {h : Heap} {r : Relation} (hwf : WF h r) (d : Key) :
    fentries (removeDomain h r d) r = (fentries h r).eraseP (fun p => p.1 == d) := by
  rw [removeDomain, fentries,
    removeReference_dicts_ne _ _ _ hwf.fneq, dictErase_dicts_self]
  rfl

theorem removeDomain_flookup {h : Heap} {r : Relation} (hwf : WF h r) (d k : Key) :
    dlookup (fentries (removeDomain h r d) r) k =
      if k = d then none else dlookup (fentries h r) k := by
  rw [removeDomain_fentries hwf, dlookup_eraseP hwf.keysF]

theorem removeDomain_sets_fwd {h : Heap} {r : Relation} (hwf : WF h r) (d : Key)
    {s : Nat} (hs : s ∈ (fentries h r).map Prod.snd) :
    (removeDomain h r d).sets s = h.sets s := by
  have hdisj := List.disjoint_of_nodup_append hwf.srefsND
  have hd : (h.dictErase r.forwardRef d).dicts r.inverseRef = h.dicts r.inverseRef :=
    dictErase_dicts_ne h d hwf.fneq.symm
  have hsnot : s ∉ ((h.dictErase r.forwardRef d).dicts r.inverseRef).entries.map
      Prod.snd := by
    rw [hd]
    exact fun hmem => hdisj hs hmem
  rw [removeDomain]
  exact removeReference_sets_not_mem _ _ _ hsnot

theorem removeDomain_sets_inv {h : Heap} {r : Relation} (hwf : WF h r) (d : Key)
    {s : Nat} (hs : s ∈ (ientries h r).map Prod.snd) :
    (removeDomain h r d).sets s = (h.sets s).erase d := by
  have hd : (h.dictErase r.forwardRef d).dicts r.inverseRef = h.dicts r.inverseRef :=
    dictErase_dicts_ne h d hwf.fneq.symm
  have hsmem : s ∈ ((h.dictErase r.forwardRef d).dicts r.inverseRef).entries.map
      Prod.snd := by
    rw [hd]
    exact hs
  rw [removeDomain]
  exact removeReference_sets_mem _ _ _ hsmem

theorem removeDomain_fval {h : Heap} {r : Relation} (hwf : WF h r) (d k : Key) :
    fval (removeDomain h r d) r k = if k = d then ∅ else fval h r k := by
  by_cases hk : k = d
  · subst hk
    rw [if_pos rfl, fval_of_none (by rw [removeDomain_flookup hwf, if_pos rfl])]
  · rw [if_neg hk]
    rcases hcase : dlookup (fentries h r) k with _ | s
    · rw [fval_of_none (by rw [removeDomain_flookup hwf, if_neg hk, hcase]),
        fval_of_none hcase]
    · rw [fval_of_some (by rw [removeDomain_flookup hwf, if_neg hk, hcase]),
        fval_of_some hcase]
      exact removeDomain_sets_fwd hwf d
        (List.mem_map.mpr ⟨(k, s), dlookup_mem hcase, rfl⟩)

theorem removeDomain_ilookup {h : Heap} {r : Relation} (hwf : WF h r) (d t : Key) :
    dlookup (ientries (removeDomain h r d) r) t =
      match dlookup (ientries h r) t with
      | some s => if (h.sets s).erase d = ∅ then none else some s
      | none => none := by
  have hd : (h.dictErase r.forwardRef d).dicts r.inverseRef = h.dicts r.inverseRef :=
    dictErase_dicts_ne h d hwf.fneq.symm
  rw [removeDomain, ientries]
  have := removeReference_lookup (h.dictErase r.forwardRef d) r.inverseRef d
    (by rw [hd]; exact hwf.keysI) t
  rw [hd] at this
  exact this

theorem removeDomain_ival {h : Heap} {r : Relation} (hwf : WF h r) (d t : Key) :
    ival (removeDomain h r d) r t = (ival h r t).erase d := by
  rcases hcase : dlookup (ientries h r) t with _ | s
  · rw [ival_of_none (by rw [removeDomain_ilookup hwf, hcase]), ival_of_none hcase,
      Finset.erase_empty]
  · by_cases hemp : (h.sets s).erase d = ∅
    · rw [ival_of_none (by rw [removeDomain_ilookup hwf, hcase]; simp [hemp]),
        ival_of_some hcase, hemp]
    · rw [ival_of_some (show dlookup (ientries (removeDomain h r d) r) t = some s by
          rw [removeDomain_ilookup hwf, hcase]; simp [hemp]),
        ival_of_some hcase]
      exact removeDomain_sets_inv hwf d
        (List.mem_map.mpr ⟨(t, s), dlookup_mem hcase, rfl⟩)

theorem removeDomain_fentries_sublist {h : Heap} {r : Relation} (hwf : WF h r)
    (d : Key) : List.Sublist (fentries (removeDomain h r d) r) (fentries h r) := by
  rw [removeDomain_fentries hwf]
  exact List.eraseP_sublist _

theorem removeDomain_ientries_sublist {h : Heap} {r : Relation} (hwf : WF h r)
    (d : Key) : List.Sublist (ientries (removeDomain h r d) r) (ientries h r) := by
  have hd : (h.dictErase r.forwardRef d).dicts r.inverseRef = h.dicts r.inverseRef :=
    dictErase_dicts_ne h d hwf.fneq.symm
  have := removeReference_entries_sublist (h.dictErase r.forwardRef d) r.inverseRef d
  rw [hd] at this
  exact this

theorem removeDomain_WF {h : Heap} {r : Relation} (hwf : WF h r) (d : Key) :
    WF (removeDomain h r d) r := by
  have hsubF := removeDomain_fentries_sublist hwf d
  have hsubI := removeDomain_ientries_sublist hwf d
  have hsub : List.Sublist
      ((fentries (removeDomain h r d) r).map Prod.snd ++
        (ientries (removeDomain h r d) r).map Prod.snd)
      ((fentries h r).map Prod.snd ++ (ientries h r).map Prod.snd) :=
    (hsubF.map Prod.snd).append (hsubI.map Prod.snd)
  refine ⟨hwf.fneq, ?_, ?_, ?_, ?_, ?_, ?_, ?_, ?_, ?_, ?_, ?_⟩
  · rw [removeDomain_fresh]; exact hwf.fref_lt
  · rw [removeDomain_fresh]; exact hwf.iref_lt
  · exact (hsubF.map Prod.fst).nodup hwf.keysF
  · exact (hsubI.map Prod.fst).nodup hwf.keysI
  · exact hsub.nodup hwf.srefsND
  · intro s hs
    rw [removeDomain_fresh]
    exact hwf.srefs_lt s (hsub.mem hs)
  · intro k s hl
    rw [removeDomain_flookup hwf] at hl
    by_cases hk : k = d
    · rw [if_pos hk] at hl; exact Option.noConfusion hl
    · rw [if_neg hk] at hl
      rw [removeDomain_sets_fwd hwf d (List.mem_map.mpr ⟨(k, s), dlookup_mem hl, rfl⟩)]
      exact hwf.nonemptyF k s hl
  · intro t s hl
    rw [removeDomain_ilookup hwf] at hl
    rcases hcase : dlookup (ientries h r) t with _ | s2
    · rw [hcase] at hl
      have hl' : (none : Option Nat) = some s := hl
      exact Option.noConfusion hl'
    · rw [hcase] at hl
      have hl' : (if (h.sets s2).erase d = ∅ then none else some s2) = some s := hl
      by_cases hemp : (h.sets s2).erase d = ∅
      · rw [if_pos hemp] at hl'; exact Option.noConfusion hl'
      · rw [if_neg hemp] at hl'
        cases hl'
        rw [removeDomain_sets_inv hwf d
          (List.mem_map.mpr ⟨(t, s), dlookup_mem hcase, rfl⟩)]
        exact hemp
  · intro k t
    rw [removeDomain_fval hwf, removeDomain_ival hwf]
    by_cases hk : k = d
    · subst hk
      simp [Finset.not_mem_erase]
    · rw [if_neg hk, Finset.mem_erase]
      simp only [hk, false_and, not_false_iff, true_and, Ne]
      exact hwf.transpose k t
  · intro hc k
    rw [removeDomain_fval hwf]
    by_cases hk : k = d
    · simp [hk]
    · rw [if_neg hk]; exact hwf.cardF hc k
  · intro hc t
    rw [removeDomain_ival hwf]
    exact le_trans (Finset.card_erase_le) (hwf.cardI hc t)


/-! ### Effect of `_remove_range`, by symmetry -/

theorem removeRange_fresh (h : Heap) (r : Relation) (t : Key) :
    (removeRange h r t).fresh = h.fresh := by
  rw [removeRange_eq, removeDomain_fresh]

theorem removeRange_ival {h : Heap} {r : Relation} (hwf : WF h r) (t0 t : Key) :
    ival (removeRange h r t0) r t = if t = t0 then ∅ else ival h r t := by
  rw [removeRange_eq]
  have := removeDomain_fval (WF_rswap hwf) t0 t
  rw [fval_rswap, fval_rswap] at this
  exact this

theorem removeRange_fval {h : Heap} {r : Relation} (hwf : WF h r) (t0 k : Key) :
    fval (removeRange h r t0) r k = (fval h r k).erase t0 := by
  rw [removeRange_eq]
  have := removeDomain_ival (WF_rswap hwf) t0 k
  rw [ival_rswap, ival_rswap] at this
  exact this

theorem removeRange_ilookup {h : Heap} {r : Relation} (hwf : WF h r) (t0 t : Key) :
    dlookup (ientries (removeRange h r t0) r) t =
      if t = t0 then none else dlookup (ientries h r) t := by
  rw [removeRange_eq]
  have := removeDomain_flookup (WF_rswap hwf) t0 t
  rw [fentries_rswap, fentries_rswap] at this
  exact this

theorem removeRange_flookup {h : Heap} {r : Relation} (hwf : WF h r) (t0 k : Key) :
    dlookup (fentries (removeRange h r t0) r) k =
      match dlookup (fentries h r) k with
      | some s => if (h.sets s).erase t0 = ∅ then none else some s
      | none => none := by
  rw [removeRange_eq]
  have := removeDomain_ilookup (WF_rswap hwf) t0 k
  rw [ientries_rswap, ientries_rswap] at this
  exact this

theorem removeRange_WF {h : Heap} {r : Relation} (hwf : WF h r) (t0 : Key) :
    WF (removeRange h r t0) r := by
  rw [removeRange_eq]
  exact WF_of_rswap (removeDomain_WF (WF_rswap hwf) t0)

/-! ### The write phase of `__setitem__` -/

/-- `m.setdefault(k, set()).add(v)`, the building block of the write phase. -/
def addTo (h : Heap) (dref : Nat) (k v : Key) : Heap :=
  setAdd (setdefaultRef h dref k).1 (setdefaultRef h dref k).2 v

theorem insertPhase_eq_addTo (h : Heap) (r : Relation) (d t : Key) :
    insertPhase h r d t = addTo (addTo h r.forwardRef d t) r.inverseRef t d := rfl

theorem setdefaultRef_some {h : Heap} {dref : Nat} {k : Key} {s : Nat}
    (hl : dlookup (h.dicts dref).entries k = some s) :
    setdefaultRef h dref k = (h, s) := by
  rw [setdefaultRef, Heap.dictLookup, hl]

theorem setdefaultRef_none {h : Heap} {dref : Nat} {k : Key}
    (hl : dlookup (h.dicts dref).entries k = none) :
    setdefaultRef h dref k = ((h.allocSet ∅).1.dictAppend dref k h.fresh, h.fresh) := by
  rw [setdefaultRef, Heap.dictLookup, hl]
  rfl

theorem addTo_some {h : Heap} {dref : Nat} {k : Key} {s : Nat} (v : Key)
    (hl : dlookup (h.dicts dref).entries k = some s) :
    addTo h dref k v = h.setSet s (insert v (h.sets s)) := by
  rw [addTo, setdefaultRef_some hl]
  rfl

theorem addTo_none {h : Heap} {dref : Nat} {k : Key} (v : Key)
    (hl : dlookup (h.dicts dref).entries k = none) :
    addTo h dref k v =
      ((h.allocSet ∅).1.dictAppend dref k h.fresh).setSet h.fresh {v} := by
  rw [addTo, setdefaultRef_none hl]
  show ((h.allocSet ∅).1.dictAppend dref k h.fresh).setSet h.fresh
      (insert v (((h.allocSet ∅).1.dictAppend dref k h.fresh).sets h.fresh)) = _
  rw [dictAppend_sets, allocSet_sets_self, LawfulSingleton.insert_emptyc_eq]

theorem addTo_none_fresh {h : Heap} {dref : Nat} {k : Key} (v : Key)
    (hl : dlookup (h.dicts dref).entries k = none) :
    (addTo h dref k v).fresh = h.fresh + 1 := by
  rw [addTo_none v hl]
  simp

theorem addTo_none_dicts_self {h : Heap} {dref : Nat} {k : Key} (v : Key)
    (hl : dlookup (h.dicts dref).entries k = none) :
    (addTo h dref k v).dicts dref =
      ⟨(h.dicts dref).ordered, (h.dicts dref).entries ++ [(k, h.fresh)]⟩ := by
  rw [addTo_none v hl, setSet_dicts, dictAppend_dicts_self, allocSet_dicts]

theorem addTo_none_dicts_ne {h : Heap} {dref : Nat} {k : Key} (v : Key)
    (hl : dlookup (h.dicts dref).entries k = none) {x : Nat} (hx : x ≠ dref) :
    (addTo h dref k v).dicts x = h.dicts x := by
  rw [addTo_none v hl, setSet_dicts, dictAppend_dicts_ne _ _ _ hx, allocSet_dicts]

theorem addTo_none_sets_new {h : Heap} {dref : Nat} {k : Key} (v : Key)
    (hl : dlookup (h.dicts dref).entries k = none) :
    (addTo h dref k v).sets h.fresh = {v} := by
  rw [addTo_none v hl, setSet_sets_self]

theorem addTo_none_sets_ne {h : Heap} {dref : Nat} {k : Key} (v : Key)
    (hl : dlookup (h.dicts dref).entries k = none) {x : Nat} (hx : x ≠ h.fresh) :
    (addTo h dref k v).sets x = h.sets x := by
  rw [addTo_none v hl, setSet_sets_ne _ _ hx, dictAppend_sets, allocSet_sets_ne _ _ hx]


theorem dlookup_snd_ne {l : List (Key × Nat)} (hnd : (l.map Prod.snd).Nodup)
    {k1 k2 : Key} {s1 s2 : Nat} (h1 : dlookup l k1 = some s1)
    (h2 : dlookup l k2 = some s2) (hk : k1 ≠ k2) : s1 ≠ s2 := by
  intro hs
  subst hs
  have := List.inj_on_of_nodup_map hnd (dlookup_mem h1) (dlookup_mem h2) rfl
  exact hk (congrArg Prod.fst this)

/-- Shorthand for the facts extracted from `srefsND`. -/
theorem WF.srefsF_nd {h : Heap} {r : Relation} (hwf : WF h r) :
    ((fentries h r).map Prod.snd).Nodup :=
  (List.nodup_append.mp hwf.srefsND).1

theorem WF.srefsI_nd {h : Heap} {r : Relation} (hwf : WF h r) :
    ((ientries h r).map Prod.snd).Nodup :=
  (List.nodup_append.mp hwf.srefsND).2.1

theorem WF.srefs_disj {h : Heap} {r : Relation} (hwf : WF h r) :
    List.Disjoint ((fentries h r).map Prod.snd) ((ientries h r).map Prod.snd) :=
  (List.nodup_append.mp hwf.srefsND).2.2

theorem WF.fsref_lt {h : Heap} {r : Relation} (hwf : WF h r) {k : Key} {s : Nat}
    (hl : dlookup (fentries h r) k = some s) : s < h.fresh :=
  hwf.srefs_lt s (List.mem_append.mpr (Or.inl
    (List.mem_map.mpr ⟨(k, s), dlookup_mem hl, rfl⟩)))

theorem WF.isref_lt {h : Heap} {r : Relation} (hwf : WF h r) {t : Key} {s : Nat}
    (hl : dlookup (ientries h r) t = some s) : s < h.fresh :=
  hwf.srefs_lt s (List.mem_append.mpr (Or.inr
    (List.mem_map.mpr ⟨(t, s), dlookup_mem hl, rfl⟩)))

theorem WF.fi_sref_ne {h : Heap} {r : Relation} (hwf : WF h r) {k t : Key}
    {sf si : Nat} (hf : dlookup (fentries h r) k = some sf)
    (hi : dlookup (ientries h r) t = some si) : sf ≠ si := by
  intro he
  exact hwf.srefs_disj (List.mem_map.mpr ⟨(k, sf), dlookup_mem hf, rfl⟩)
    (he ▸ List.mem_map.mpr ⟨(t, si), dlookup_mem hi, rfl⟩)

theorem insertPhase_fentries {h : Heap} {r : Relation} (hwf : WF h r) (d t : Key) :
    fentries (insertPhase h r d t) r =
      fentries h r ++
        (if (dlookup (fentries h r) d).isSome then [] else [(d, h.fresh)]) := by
  rw [insertPhase_eq_addTo]
  rcases cd : dlookup (fentries h r) d with _ | sf
  · -- d absent: the forward phase appends `(d, h.fresh)`
    have h1 : (addTo h r.forwardRef d t).dicts r.forwardRef =
        ⟨(h.dicts r.forwardRef).ordered,
          (h.dicts r.forwardRef).entries ++ [(d, h.fresh)]⟩ :=
      addTo_none_dicts_self t cd
    rcases ci : dlookup (ientries (addTo h r.forwardRef d t) r) t with _ | si
    · rw [fentries, addTo_none_dicts_ne d ci hwf.fneq, h1]
      simp [fentries]
    · rw [fentries, addTo_some d ci, setSet_dicts, h1]
      simp [fentries]
  · -- d present: the forward dictionary is untouched
    have h1 : (addTo h r.forwardRef d t).dicts r.forwardRef = h.dicts r.forwardRef := by
      rw [addTo_some t cd, setSet_dicts]
    rcases ci : dlookup (ientries (addTo h r.forwardRef d t) r) t with _ | si
    · rw [fentries, addTo_none_dicts_ne d ci hwf.fneq, h1]
      simp [fentries]
    · rw [fentries, addTo_some d ci, setSet_dicts, h1]
      simp [fentries]


theorem insertPhase_ientries {h : Heap} {r : Relation} (hwf : WF h r) (d t : Key) :
    ientries (insertPhase h r d t) r =
      ientries h r ++
        (if (dlookup (ientries h r) t).isSome then []
         else [(t, if (dlookup (fentries h r) d).isSome then h.fresh else h.fresh + 1)]) := by
  rw [insertPhase_eq_addTo]
  rcases cd : dlookup (fentries h r) d with _ | sf
  · have hie : ientries (addTo h r.forwardRef d t) r = ientries h r := by
      rw [ientries, addTo_none_dicts_ne t cd hwf.fneq.symm]
      rfl
    have hfr : (addTo h r.forwardRef d t).fresh = h.fresh + 1 := addTo_none_fresh t cd
    rcases ci : dlookup (ientries h r) t with _ | si
    · have ci2 : dlookup (ientries (addTo h r.forwardRef d t) r) t = none := by
        rw [hie]; exact ci
      rw [ientries, addTo_none_dicts_self d ci2, hfr]
      simp only [ci, Option.isSome_none, Bool.false_eq_true, if_false, cd]
      rw [← ientries, hie]
    · have ci2 : dlookup (ientries (addTo h r.forwardRef d t) r) t = some si := by
        rw [hie]; exact ci
      rw [ientries, addTo_some d ci2, setSet_dicts, ← ientries, hie]
      simp [ci]
  · have hA_eq : addTo h r.forwardRef d t = h.setSet sf (insert t (h.sets sf)) :=
      addTo_some t cd
    have hie : ientries (addTo h r.forwardRef d t) r = ientries h r := by
      rw [hA_eq]; rfl
    have hfr : (addTo h r.forwardRef d t).fresh = h.fresh := by rw [hA_eq]; rfl
    rcases ci : dlookup (ientries h r) t with _ | si
    · have ci2 : dlookup (ientries (addTo h r.forwardRef d t) r) t = none := by
        rw [hie]; exact ci
      rw [ientries, addTo_none_dicts_self d ci2, hfr]
      simp only [ci, Option.isSome_none, Bool.false_eq_true, if_false, cd]
      rw [← ientries, hie]
      simp
    · have ci2 : dlookup (ientries (addTo h r.forwardRef d t) r) t = some si := by
        rw [hie]; exact ci
      rw [ientries, addTo_some d ci2, setSet_dicts, ← ientries, hie]
      simp [ci]

theorem insertPhase_fresh_eq {h : Heap} {r : Relation} (hwf : WF h r) (d t : Key) :
    (insertPhase h r d t).fresh =
      h.fresh + (if (dlookup (fentries h r) d).isSome then 0 else 1) +
        (if (dlookup (ientries h r) t).isSome then 0 else 1) := by
  rw [insertPhase_eq_addTo]
  rcases cd : dlookup (fentries h r) d with _ | sf
  · have hie : ientries (addTo h r.forwardRef d t) r = ientries h r := by
      rw [ientries, addTo_none_dicts_ne t cd hwf.fneq.symm]
      rfl
    have hfr : (addTo h r.forwardRef d t).fresh = h.fresh + 1 := addTo_none_fresh t cd
    rcases ci : dlookup (ientries h r) t with _ | si
    · have ci2 : dlookup (ientries (addTo h r.forwardRef d t) r) t = none := by
        rw [hie]; exact ci
      rw [addTo_none_fresh d ci2, hfr]
      simp
    · have ci2 : dlookup (ientries (addTo h r.forwardRef d t) r) t = some si := by
        rw [hie]; exact ci
      rw [addTo_some d ci2, setSet_fresh, hfr]
      simp
  · have hA_eq : addTo h r.forwardRef d t = h.setSet sf (insert t (h.sets sf)) :=
      addTo_some t cd
    have hie : ientries (addTo h r.forwardRef d t) r = ientries h r := by
      rw [hA_eq]; rfl
    have hfr : (addTo h r.forwardRef d t).fresh = h.fresh := by rw [hA_eq]; rfl
    rcases ci : dlookup (ientries h r) t with _ | si
    · have ci2 : dlookup (ientries (addTo h r.forwardRef d t) r) t = none := by
        rw [hie]; exact ci
      rw [addTo_none_fresh d ci2, hfr]
      simp
    · have ci2 : dlookup (ientries (addTo h r.forwardRef d t) r) t = some si := by
        rw [hie]; exact ci
      rw [addTo_some d ci2, setSet_fresh, hfr]
      simp


theorem dlookup_single_self (k : Key) (x : Nat) : dlookup [(k, x)] k = some x := by
  simp [dlookup]

theorem dlookup_single_ne {k k2 : Key} (x : Nat) (hk : k2 ≠ k) :
    dlookup [(k, x)] k2 = none := by
  simp [dlookup, hk]

theorem insertPhase_fval {h : Heap} {r : Relation} (hwf : WF h r) (d t k : Key) :
    fval (insertPhase h r d t) r k =
      if k = d then insert t (fval h r d) else fval h r k := by
  have hfe := insertPhase_fentries hwf d t
  rcases cd : dlookup (fentries h r) d with _ | sf
  all_goals rcases ci0 : dlookup (ientries h r) t with _ | si
  · -- d absent, t absent
    rw [cd] at hfe
    simp only [Option.isSome_none, Bool.false_eq_true, if_false] at hfe
    have hie : ientries (addTo h r.forwardRef d t) r = ientries h r := by
      rw [ientries, addTo_none_dicts_ne t cd hwf.fneq.symm]; rfl
    have hAfr : (addTo h r.forwardRef d t).fresh = h.fresh + 1 := addTo_none_fresh t cd
    have ci : dlookup (ientries (addTo h r.forwardRef d t) r) t = none := by
      rw [hie]; exact ci0
    have hsets : ∀ x, x ≠ h.fresh → x ≠ h.fresh + 1 →
        (insertPhase h r d t).sets x = h.sets x := by
      intro x hx1 hx2
      rw [insertPhase_eq_addTo, addTo_none_sets_ne d ci (by rw [hAfr]; exact hx2),
        addTo_none_sets_ne t cd hx1]
    have hsnew : (insertPhase h r d t).sets h.fresh = {t} := by
      rw [insertPhase_eq_addTo,
        addTo_none_sets_ne d ci (by rw [hAfr]; exact (Nat.lt_succ_self _).ne),
        addTo_none_sets_new t cd]
    by_cases hk : k = d
    · subst hk
      rw [if_pos rfl,
        fval_of_some (by rw [hfe, dlookup_append, cd, dlookup_single_self]),
        hsnew, fval_of_none cd]
      simp
    · rw [if_neg hk]
      rcases hck : dlookup (fentries h r) k with _ | s
      · rw [fval_of_none (by rw [hfe, dlookup_append, hck, dlookup_single_ne _ hk]),
          fval_of_none hck]
      · have hlt : s < h.fresh := hwf.fsref_lt hck
        rw [fval_of_some (by rw [hfe, dlookup_append, hck]), fval_of_some hck,
          hsets s hlt.ne (Nat.lt_succ_of_lt hlt).ne]
  · -- d absent, t present
    rw [cd] at hfe
    simp only [Option.isSome_none, Bool.false_eq_true, if_false] at hfe
    have hie : ientries (addTo h r.forwardRef d t) r = ientries h r := by
      rw [ientries, addTo_none_dicts_ne t cd hwf.fneq.symm]; rfl
    have ci : dlookup (ientries (addTo h r.forwardRef d t) r) t = some si := by
      rw [hie]; exact ci0
    have hsi_lt : si < h.fresh := hwf.isref_lt ci0
    have hsets : ∀ x, x ≠ h.fresh → x ≠ si →
        (insertPhase h r d t).sets x = h.sets x := by
      intro x hx1 hx2
      rw [insertPhase_eq_addTo, addTo_some d ci, setSet_sets_ne _ _ hx2,
        addTo_none_sets_ne t cd hx1]
    have hsnew : (insertPhase h r d t).sets h.fresh = {t} := by
      rw [insertPhase_eq_addTo, addTo_some d ci, setSet_sets_ne _ _ hsi_lt.ne',
        addTo_none_sets_new t cd]
    by_cases hk : k = d
    · subst hk
      rw [if_pos rfl,
        fval_of_some (by rw [hfe, dlookup_append, cd, dlookup_single_self]),
        hsnew, fval_of_none cd]
      simp
    · rw [if_neg hk]
      rcases hck : dlookup (fentries h r) k with _ | s
      · rw [fval_of_none (by rw [hfe, dlookup_append, hck, dlookup_single_ne _ hk]),
          fval_of_none hck]
      · have hlt : s < h.fresh := hwf.fsref_lt hck
        have hs_si : s ≠ si := hwf.fi_sref_ne hck ci0
        rw [fval_of_some (by rw [hfe, dlookup_append, hck]), fval_of_some hck,
          hsets s hlt.ne hs_si]
  · -- d present, t absent
    rw [cd] at hfe
    simp only [Option.isSome_some, if_true, List.append_nil] at hfe
    have hA_eq : addTo h r.forwardRef d t = h.setSet sf (insert t (h.sets sf)) :=
      addTo_some t cd
    have hie : ientries (addTo h r.forwardRef d t) r = ientries h r := by
      rw [hA_eq]; rfl
    have hAfr : (addTo h r.forwardRef d t).fresh = h.fresh := by rw [hA_eq]; rfl
    have ci : dlookup (ientries (addTo h r.forwardRef d t) r) t = none := by
      rw [hie]; exact ci0
    have hsf_lt : sf < h.fresh := hwf.fsref_lt cd
    have hsets : ∀ x, x ≠ sf → x ≠ h.fresh →
        (insertPhase h r d t).sets x = h.sets x := by
      intro x hx1 hx2
      rw [insertPhase_eq_addTo, addTo_none_sets_ne d ci (by rw [hAfr]; exact hx2),
        hA_eq, setSet_sets_ne _ _ hx1]
    have hssf : (insertPhase h r d t).sets sf = insert t (h.sets sf) := by
      rw [insertPhase_eq_addTo, addTo_none_sets_ne d ci (by rw [hAfr]; exact hsf_lt.ne),
        hA_eq, setSet_sets_self]
    by_cases hk : k = d
    · subst hk
      rw [if_pos rfl, fval_of_some (by rw [hfe]; exact cd), hssf, fval_of_some cd]
    · rw [if_neg hk]
      rcases hck : dlookup (fentries h r) k with _ | s
      · rw [fval_of_none (by rw [hfe]; exact hck), fval_of_none hck]
      · have hlt : s < h.fresh := hwf.fsref_lt hck
        have hs_sf : s ≠ sf := dlookup_snd_ne hwf.srefsF_nd hck cd hk
        rw [fval_of_some (by rw [hfe]; exact hck), fval_of_some hck,
          hsets s hs_sf hlt.ne]
  · -- d present, t present
    rw [cd] at hfe
    simp only [Option.isSome_some, if_true, List.append_nil] at hfe
    have hA_eq : addTo h r.forwardRef d t = h.setSet sf (insert t (h.sets sf)) :=
      addTo_some t cd
    have hie : ientries (addTo h r.forwardRef d t) r = ientries h r := by
      rw [hA_eq]; rfl
    have ci : dlookup (ientries (addTo h r.forwardRef d t) r) t = some si := by
      rw [hie]; exact ci0
    have hsf_si : sf ≠ si := hwf.fi_sref_ne cd ci0
    have hsets : ∀ x, x ≠ sf → x ≠ si →
        (insertPhase h r d t).sets x = h.sets x := by
      intro x hx1 hx2
      rw [insertPhase_eq_addTo, addTo_some d ci, setSet_sets_ne _ _ hx2,
        hA_eq, setSet_sets_ne _ _ hx1]
    have hssf : (insertPhase h r d t).sets sf = insert t (h.sets sf) := by
      rw [insertPhase_eq_addTo, addTo_some d ci, setSet_sets_ne _ _ hsf_si,
        hA_eq, setSet_sets_self]
    by_cases hk : k = d
    · subst hk
      rw [if_pos rfl, fval_of_some (by rw [hfe]; exact cd), hssf, fval_of_some cd]
    · rw [if_neg hk]
      rcases hck : dlookup (fentries h r) k with _ | s
      · rw [fval_of_none (by rw [hfe]; exact hck), fval_of_none hck]
      · have hlt : s < h.fresh := hwf.fsref_lt hck
        have hs_sf : s ≠ sf := dlookup_snd_ne hwf.srefsF_nd hck cd hk
        have hs_si : s ≠ si := hwf.fi_sref_ne hck ci0
        rw [fval_of_some (by rw [hfe]; exact hck), fval_of_some hck,
          hsets s hs_sf hs_si]


theorem insertPhase_ival {h : Heap} {r : Relation} (hwf : WF h r) (d t u : Key) :
    ival (insertPhase h r d t) r u =
      if u = t then insert d (ival h r t) else ival h r u := by
  have hne := insertPhase_ientries hwf d t
  rcases cd : dlookup (fentries h r) d with _ | sf
  all_goals rcases ci0 : dlookup (ientries h r) t with _ | si
  · -- d absent, t absent
    rw [cd, ci0] at hne
    simp only [Option.isSome_none, Bool.false_eq_true, if_false] at hne
    have hie : ientries (addTo h r.forwardRef d t) r = ientries h r := by
      rw [ientries, addTo_none_dicts_ne t cd hwf.fneq.symm]; rfl
    have hAfr : (addTo h r.forwardRef d t).fresh = h.fresh + 1 := addTo_none_fresh t cd
    have ci : dlookup (ientries (addTo h r.forwardRef d t) r) t = none := by
      rw [hie]; exact ci0
    have hsets : ∀ x, x ≠ h.fresh → x ≠ h.fresh + 1 →
        (insertPhase h r d t).sets x = h.sets x := by
      intro x hx1 hx2
      rw [insertPhase_eq_addTo, addTo_none_sets_ne d ci (by rw [hAfr]; exact hx2),
        addTo_none_sets_ne t cd hx1]
    have hsnew : (insertPhase h r d t).sets (h.fresh + 1) = {d} := by
      have := addTo_none_sets_new d ci
      rw [hAfr] at this
      rw [insertPhase_eq_addTo]
      exact this
    by_cases hu : u = t
    · subst hu
      rw [if_pos rfl,
        ival_of_some (by rw [hne, dlookup_append, ci0, dlookup_single_self]),
        hsnew, ival_of_none ci0]
      simp
    · rw [if_neg hu]
      rcases hcu : dlookup (ientries h r) u with _ | s
      · rw [ival_of_none (by rw [hne, dlookup_append, hcu, dlookup_single_ne _ hu]),
          ival_of_none hcu]
      · have hlt : s < h.fresh := hwf.isref_lt hcu
        rw [ival_of_some (by rw [hne, dlookup_append, hcu]), ival_of_some hcu,
          hsets s hlt.ne (Nat.lt_succ_of_lt hlt).ne]
  · -- d absent, t present
    rw [ci0] at hne
    simp only [Option.isSome_some, if_true, List.append_nil] at hne
    have hie : ientries (addTo h r.forwardRef d t) r = ientries h r := by
      rw [ientries, addTo_none_dicts_ne t cd hwf.fneq.symm]; rfl
    have ci : dlookup (ientries (addTo h r.forwardRef d t) r) t = some si := by
      rw [hie]; exact ci0
    have hsi_lt : si < h.fresh := hwf.isref_lt ci0
    have hsets : ∀ x, x ≠ h.fresh → x ≠ si →
        (insertPhase h r d t).sets x = h.sets x := by
      intro x hx1 hx2
      rw [insertPhase_eq_addTo, addTo_some d ci, setSet_sets_ne _ _ hx2,
        addTo_none_sets_ne t cd hx1]
    have hssi : (insertPhase h r d t).sets si = insert d (h.sets si) := by
      rw [insertPhase_eq_addTo, addTo_some d ci, setSet_sets_self,
        addTo_none_sets_ne t cd hsi_lt.ne]
    by_cases hu : u = t
    · subst hu
      rw [if_pos rfl, ival_of_some (by rw [hne]; exact ci0), hssi, ival_of_some ci0]
    · rw [if_neg hu]
      rcases hcu : dlookup (ientries h r) u with _ | s
      · rw [ival_of_none (by rw [hne]; exact hcu), ival_of_none hcu]
      · have hlt : s < h.fresh := hwf.isref_lt hcu
        have hs_si : s ≠ si := dlookup_snd_ne hwf.srefsI_nd hcu ci0 hu
        rw [ival_of_some (by rw [hne]; exact hcu), ival_of_some hcu,
          hsets s hlt.ne hs_si]
  · -- d present, t absent
    rw [cd, ci0] at hne
    simp only [Option.isSome_none, Bool.false_eq_true, if_false,
      Option.isSome_some, if_true] at hne
    have hA_eq : addTo h r.forwardRef d t = h.setSet sf (insert t (h.sets sf)) :=
      addTo_some t cd
    have hie : ientries (addTo h r.forwardRef d t) r = ientries h r := by
      rw [hA_eq]; rfl
    have hAfr : (addTo h r.forwardRef d t).fresh = h.fresh := by rw [hA_eq]; rfl
    have ci : dlookup (ientries (addTo h r.forwardRef d t) r) t = none := by
      rw [hie]; exact ci0
    have hsf_lt : sf < h.fresh := hwf.fsref_lt cd
    have hsets : ∀ x, x ≠ sf → x ≠ h.fresh →
        (insertPhase h r d t).sets x = h.sets x := by
      intro x hx1 hx2
      rw [insertPhase_eq_addTo, addTo_none_sets_ne d ci (by rw [hAfr]; exact hx2),
        hA_eq, setSet_sets_ne _ _ hx1]
    have hsnew : (insertPhase h r d t).sets h.fresh = {d} := by
      have := addTo_none_sets_new d ci
      rw [hAfr] at this
      rw [insertPhase_eq_addTo]
      exact this
    by_cases hu : u = t
    · subst hu
      rw [if_pos rfl,
        ival_of_some (by rw [hne, dlookup_append, ci0, dlookup_single_self]),
        hsnew, ival_of_none ci0]
      simp
    · rw [if_neg hu]
      rcases hcu : dlookup (ientries h r) u with _ | s
      · rw [ival_of_none (by rw [hne, dlookup_append, hcu, dlookup_single_ne _ hu]),
          ival_of_none hcu]
      · have hlt : s < h.fresh := hwf.isref_lt hcu
        have hs_sf : s ≠ sf := (hwf.fi_sref_ne cd hcu).symm
        rw [ival_of_some (by rw [hne, dlookup_append, hcu]), ival_of_some hcu,
          hsets s hs_sf hlt.ne]
  · -- d present, t present
    rw [ci0] at hne
    simp only [Option.isSome_some, if_true, List.append_nil] at hne
    have hA_eq : addTo h r.forwardRef d t = h.setSet sf (insert t (h.sets sf)) :=
      addTo_some t cd
    have hie : ientries (addTo h r.forwardRef d t) r = ientries h r := by
      rw [hA_eq]; rfl
    have ci : dlookup (ientries (addTo h r.forwardRef d t) r) t = some si := by
      rw [hie]; exact ci0
    have hsf_si : sf ≠ si := hwf.fi_sref_ne cd ci0
    have hsets : ∀ x, x ≠ sf → x ≠ si →
        (insertPhase h r d t).sets x = h.sets x := by
      intro x hx1 hx2
      rw [insertPhase_eq_addTo, addTo_some d ci, setSet_sets_ne _ _ hx2,
        hA_eq, setSet_sets_ne _ _ hx1]
    have hssi : (insertPhase h r d t).sets si = insert d (h.sets si) := by
      rw [insertPhase_eq_addTo, addTo_some d ci, setSet_sets_self,
        hA_eq, setSet_sets_ne _ _ hsf_si.symm]
    by_cases hu : u = t
    · subst hu
      rw [if_pos rfl, ival_of_some (by rw [hne]; exact ci0), hssi, ival_of_some ci0]
    · rw [if_neg hu]
      rcases hcu : dlookup (ientries h r) u with _ | s
      · rw [ival_of_none (by rw [hne]; exact hcu), ival_of_none hcu]
      · have hs_si : s ≠ si := dlookup_snd_ne hwf.srefsI_nd hcu ci0 hu
        have hs_sf : s ≠ sf := (hwf.fi_sref_ne cd hcu).symm
        rw [ival_of_some (by rw [hne]; exact hcu), ival_of_some hcu,
          hsets s hs_sf hs_si]


theorem insertPhase_flookup_ne {h : Heap} {r : Relation} (hwf : WF h r) (d t : Key)
    {k : Key} (hk : k ≠ d) :
    dlookup (fentries (insertPhase h r d t) r) k = dlookup (fentries h r) k := by
  rw [insertPhase_fentries hwf d t, dlookup_append]
  rcases hck : dlookup (fentries h r) k with _ | s
  · by_cases hd : (dlookup (fentries h r) d).isSome
    · simp [hd, dlookup]
    · simp only [hd, Bool.false_eq_true, if_false]
      exact dlookup_single_ne _ hk
  · rfl

theorem insertPhase_ilookup_ne {h : Heap} {r : Relation} (hwf : WF h r) (d t : Key)
    {u : Key} (hu : u ≠ t) :
    dlookup (ientries (insertPhase h r d t) r) u = dlookup (ientries h r) u := by
  rw [insertPhase_ientries hwf d t, dlookup_append]
  rcases hcu : dlookup (ientries h r) u with _ | s
  · by_cases ht : (dlookup (ientries h r) t).isSome
    · simp [ht, dlookup]
    · simp only [ht, Bool.false_eq_true, if_false]
      exact dlookup_single_ne _ hu
  · rfl

theorem nodup_snoc {l : List Nat} {x : Nat} (h : l.Nodup) (hx : x ∉ l) :
    (l ++ [x]).Nodup :=
  List.nodup_append_comm.mp (List.nodup_cons.mpr ⟨hx, h⟩)

theorem insertPhase_fresh_le {h : Heap} {r : Relation} (hwf : WF h r) (d t : Key) :
    h.fresh ≤ (insertPhase h r d t).fresh := by
  rw [insertPhase_fresh_eq hwf d t]
  omega


theorem insertPhase_WF {h : Heap} {r : Relation} (hwf : WF h r) (d t : Key)
    (hF : r.cardinality = .oneOne ∨ r.cardinality = .manyOne →
      dlookup (fentries h r) d = none)
    (hI : r.cardinality = .oneOne ∨ r.cardinality = .oneMany →
      dlookup (ientries h r) t = none) :
    WF (insertPhase h r d t) r := by
  have hFlt : ∀ x ∈ (fentries h r).map Prod.snd, x < h.fresh :=
    fun x hx => hwf.srefs_lt x (List.mem_append.mpr (Or.inl hx))
  have hIlt : ∀ x ∈ (ientries h r).map Prod.snd, x < h.fresh :=
    fun x hx => hwf.srefs_lt x (List.mem_append.mpr (Or.inr hx))
  have hfle := insertPhase_fresh_le hwf d t
  refine ⟨hwf.fneq, lt_of_lt_of_le hwf.fref_lt hfle, lt_of_lt_of_le hwf.iref_lt hfle,
    ?_, ?_, ?_, ?_, ?_, ?_, ?_, ?_, ?_⟩
  · -- keysF
    rw [insertPhase_fentries hwf d t]
    by_cases hd : (dlookup (fentries h r) d).isSome
    · simpa [hd] using hwf.keysF
    · rw [if_neg hd, List.map_append]
      exact nodup_snoc hwf.keysF
        (by
          rw [Option.not_isSome_iff_eq_none] at hd
          simpa using dlookup_eq_none.mp hd)
  · -- keysI
    rw [insertPhase_ientries hwf d t]
    by_cases ht : (dlookup (ientries h r) t).isSome
    · simpa [ht] using hwf.keysI
    · rw [if_neg ht, List.map_append]
      exact nodup_snoc hwf.keysI
        (by
          rw [Option.not_isSome_iff_eq_none] at ht
          simpa using dlookup_eq_none.mp ht)
  · -- srefsND
    rw [insertPhase_fentries hwf d t, insertPhase_ientries hwf d t]
    obtain ⟨hndF, hndI, hdisj⟩ := List.nodup_append.mp hwf.srefsND
    rcases cd : dlookup (fentries h r) d with _ | sf <;>
      rcases ci0 : dlookup (ientries h r) t with _ | si
    · -- both absent: fresh refs h.fresh and h.fresh + 1
      simp only [cd, ci0, Option.isSome_none, Bool.false_eq_true, if_false,
        List.map_append, List.map_cons, List.map_nil]
      rw [List.nodup_append]
      refine ⟨nodup_snoc hndF (fun hm => absurd (hFlt _ hm) (lt_irrefl _)), ?_, ?_⟩
      · exact nodup_snoc hndI (fun hm => absurd (hIlt _ hm) (by omega))
      · intro a ha hb
        rcases List.mem_append.mp ha with ha | ha <;>
          rcases List.mem_append.mp hb with hb | hb
        · exact hdisj ha hb
        · simp at hb; subst hb
          exact absurd (hFlt _ ha) (by omega)
        · simp at ha; subst ha
          exact absurd (hIlt _ hb) (lt_irrefl _)
        · simp at ha hb; omega
    · -- d absent, t present
      simp only [cd, ci0, Option.isSome_none, Option.isSome_some, Bool.false_eq_true,
        if_false, if_true, List.append_nil, List.map_append, List.map_cons, List.map_nil]
      rw [List.nodup_append]
      refine ⟨nodup_snoc hndF (fun hm => absurd (hFlt _ hm) (lt_irrefl _)), hndI, ?_⟩
      intro a ha hb
      rcases List.mem_append.mp ha with ha | ha
      · exact hdisj ha hb
      · simp at ha; subst ha
        exact absurd (hIlt _ hb) (lt_irrefl _)
    · -- d present, t absent
      simp only [cd, ci0, Option.isSome_none, Option.isSome_some, Bool.false_eq_true,
        if_false, if_true, List.append_nil, List.map_append, List.map_cons, List.map_nil]
      rw [List.nodup_append]
      refine ⟨hndF, nodup_snoc hndI (fun hm => absurd (hIlt _ hm) (lt_irrefl _)), ?_⟩
      intro a ha hb
      rcases List.mem_append.mp hb with hb | hb
      · exact hdisj ha hb
      · simp at hb; subst hb
        exact absurd (hFlt _ ha) (lt_irrefl _)
    · -- both present
      simpa [cd, ci0] using hwf.srefsND
  · -- srefs_lt
    intro x hx
    rw [insertPhase_fentries hwf d t, insertPhase_ientries hwf d t] at hx
    rw [insertPhase_fresh_eq hwf d t]
    rcases cd : dlookup (fentries h r) d with _ | sf <;>
      rcases ci0 : dlookup (ientries h r) t with _ | si <;>
      simp only [cd, ci0, Option.isSome_none, Option.isSome_some, Bool.false_eq_true,
        if_false, if_true, List.append_nil, List.map_append, List.map_cons,
        List.map_nil, List.mem_append, List.mem_singleton] at hx ⊢
    · rcases hx with (hx | hx) | (hx | hx)
      · have := hFlt _ hx; omega
      · omega
      · have := hIlt _ hx; omega
      · omega
    · rcases hx with (hx | hx) | hx
      · have := hFlt _ hx; omega
      · omega
      · have := hIlt _ hx; omega
    · rcases hx with hx | (hx | hx)
      · have := hFlt _ hx; omega
      · have := hIlt _ hx; omega
      · omega
    · rcases hx with hx | hx
      · have := hFlt _ hx; omega
      · have := hIlt _ hx; omega
  · -- nonemptyF
    intro k sx hl
    rw [← fval_of_some hl]
    rw [insertPhase_fval hwf d t]
    by_cases hk : k = d
    · rw [if_pos hk]
      exact Finset.insert_ne_empty _ _
    · rw [if_neg hk]
      rw [insertPhase_flookup_ne hwf d t hk] at hl
      rw [fval_of_some hl]
      exact hwf.nonemptyF k sx hl
  · -- nonemptyI
    intro u sx hl
    rw [← ival_of_some hl]
    rw [insertPhase_ival hwf d t]
    by_cases hu : u = t
    · rw [if_pos hu]
      exact Finset.insert_ne_empty _ _
    · rw [if_neg hu]
      rw [insertPhase_ilookup_ne hwf d t hu] at hl
      rw [ival_of_some hl]
      exact hwf.nonemptyI u sx hl
  · -- transpose
    intro k u
    rw [insertPhase_fval hwf d t, insertPhase_ival hwf d t]
    by_cases hk : k = d <;> by_cases hu : u = t
    · subst hk; subst hu
      simp
    · subst hk
      rw [if_pos rfl, if_neg hu]
      rw [Finset.mem_insert]
      simp only [hu, false_or]
      exact hwf.transpose k u
    · subst hu
      rw [if_neg hk, if_pos rfl]
      rw [Finset.mem_insert]
      simp only [hk, false_or]
      exact hwf.transpose k u
    · rw [if_neg hk, if_neg hu]
      exact hwf.transpose k u
  · -- cardF
    intro hc k
    rw [insertPhase_fval hwf d t]
    by_cases hk : k = d
    · rw [if_pos hk, fval_of_none (hF hc)]
      simp
    · rw [if_neg hk]
      exact hwf.cardF hc k
  · -- cardI
    intro hc u
    rw [insertPhase_ival hwf d t]
    by_cases hu : u = t
    · rw [if_pos hu, ival_of_none (hI hc)]
      simp
    · rw [if_neg hu]
      exact hwf.cardI hc u


/-! ### The full per-pair insertion `__setitem__` -/

/-- The eviction phase of `__setitem__` for one pair: domain side first, then
range side. -/
def evictPhase (h : Heap) (r : Relation) (d t : Key) : Heap :=
  let h1 := if (r.cardinality = .oneOne ∨ r.cardinality = .manyOne) ∧
               h.dictMem r.forwardRef d = true
            then removeDomain h r d else h
  if (r.cardinality = .oneOne ∨ r.cardinality = .oneMany) ∧
     h1.dictMem r.inverseRef t = true
  then removeRange h1 r t else h1

theorem setPair_eq (h : Heap) (r : Relation) (d t : Key) :
    setPair h r d t = insertPhase (evictPhase h r d t) r d t := rfl

theorem dictMem_eq_isSome (h : Heap) (r : Relation) (d : Key) :
    h.dictMem r.forwardRef d = (dlookup (fentries h r) d).isSome := rfl

theorem dictMemI_eq_isSome (h : Heap) (r : Relation) (t : Key) :
    h.dictMem r.inverseRef t = (dlookup (ientries h r) t).isSome := rfl

theorem not_dictMem_flookup {h : Heap} {r : Relation} {d : Key}
    (hm : ¬h.dictMem r.forwardRef d = true) :
    dlookup (fentries h r) d = none := by
  rw [dictMem_eq_isSome] at hm
  rcases hx : dlookup (fentries h r) d with _ | s
  · rfl
  · rw [hx] at hm
    simp at hm

theorem not_dictMem_ilookup {h : Heap} {r : Relation} {t : Key}
    (hm : ¬h.dictMem r.inverseRef t = true) :
    dlookup (ientries h r) t = none := by
  rw [dictMemI_eq_isSome] at hm
  rcases hx : dlookup (ientries h r) t with _ | s
  · rfl
  · rw [hx] at hm
    simp at hm

theorem evictPhase_WF {h : Heap} {r : Relation} (hwf : WF h r) (d t : Key) :
    WF (evictPhase h r d t) r := by
  rw [evictPhase]
  split_ifs with h1 h2 h3
  · exact removeRange_WF (removeDomain_WF hwf d) t
  · exact removeDomain_WF hwf d
  · exact removeRange_WF hwf t
  · exact hwf

theorem evictPhase_flookup_of_cond {h : Heap} {r : Relation} (hwf : WF h r)
    (d t : Key) (hc : r.cardinality = .oneOne ∨ r.cardinality = .manyOne) :
    dlookup (fentries (evictPhase h r d t) r) d = none := by
  rw [evictPhase]
  split_ifs with h1 h2 h3
  · rw [removeRange_flookup (removeDomain_WF hwf d),
      removeDomain_flookup hwf, if_pos rfl]
  · rw [removeDomain_flookup hwf, if_pos rfl]
  · have hl1 : dlookup (fentries h r) d = none :=
      not_dictMem_flookup (fun hm => h1 ⟨hc, hm⟩)
    rw [removeRange_flookup hwf, hl1]
  · exact not_dictMem_flookup (fun hm => h1 ⟨hc, hm⟩)

theorem evictPhase_ilookup_of_cond {h : Heap} {r : Relation} (hwf : WF h r)
    (d t : Key) (hc : r.cardinality = .oneOne ∨ r.cardinality = .oneMany) :
    dlookup (ientries (evictPhase h r d t) r) t = none := by
  rw [evictPhase]
  split_ifs with h1 h2 h3
  · rw [removeRange_ilookup (removeDomain_WF hwf d), if_pos rfl]
  · exact not_dictMem_ilookup (fun hm => h2 ⟨hc, hm⟩)
  · rw [removeRange_ilookup hwf, if_pos rfl]
  · exact not_dictMem_ilookup (fun hm => h3 ⟨hc, hm⟩)

theorem setPair_WF {h : Heap} {r : Relation} (hwf : WF h r) (d t : Key) :
    WF (setPair h r d t) r := by
  rw [setPair_eq]
  exact insertPhase_WF (evictPhase_WF hwf d t) d t
    (fun hc => evictPhase_flookup_of_cond hwf d t hc)
    (fun hc => evictPhase_ilookup_of_cond hwf d t hc)

theorem setPair_of_manyMany {h : Heap} {r : Relation}
    (hc : r.cardinality = .manyMany) (d t : Key) :
    setPair h r d t = insertPhase h r d t := by
  rw [setPair_eq, evictPhase]
  simp [hc]


/-! ### Invariant preservation by every public operation -/

theorem foldl_setPair_WF {r : Relation} (d : Key) (ts : List Key) {h : Heap}
    (hwf : WF h r) : WF (ts.foldl (fun hh t => setPair hh r d t) h) r := by
  induction ts generalizing h with
  | nil => exact hwf
  | cons t rest ih => exact ih (setPair_WF hwf d t)

theorem setitem_WF {h : Heap} {r : Relation} (hwf : WF h r)
    (dom tgt : SetArg) : WF (setitem h r dom tgt) r := by
  rw [setitem]
  induction dom.toList generalizing h with
  | nil => exact hwf
  | cons d rest ih => exact ih (foldl_setPair_WF d tgt.toList hwf)

theorem foldl_setitem_WF {r : Relation} (pairs : List (Key × Key)) {h : Heap}
    (hwf : WF h r) :
    WF (pairs.foldl (fun hh p => setitem hh r (.one p.1) (.one p.2)) h) r := by
  induction pairs generalizing h with
  | nil => exact hwf
  | cons p rest ih => exact ih (setitem_WF hwf _ _)

theorem mkRelation_rel (h : Heap) (card : Card) (flag : Bool) :
    (mkRelation h card flag).2 = ⟨h.fresh, h.fresh + 1, card⟩ := rfl

theorem mkRelation_sets (h : Heap) (card : Card) (flag : Bool) :
    (mkRelation h card flag).1.sets = h.sets := rfl

theorem mkRelation_fresh (h : Heap) (card : Card) (flag : Bool) :
    (mkRelation h card flag).1.fresh = h.fresh + 2 := rfl

theorem mkRelation_dicts_lt (h : Heap) (card : Card) (flag : Bool) {x : Nat}
    (hx : x < h.fresh) : (mkRelation h card flag).1.dicts x = h.dicts x := by
  show ((h.allocDict flag).1.allocDict flag).1.dicts x = h.dicts x
  rw [allocDict_dicts_ne _ _ (by simp; omega), allocDict_dicts_ne _ _ (by omega)]

theorem mkRelation_dicts_fwd (h : Heap) (card : Card) (flag : Bool) :
    (mkRelation h card flag).1.dicts h.fresh = ⟨flag, []⟩ := by
  show ((h.allocDict flag).1.allocDict flag).1.dicts h.fresh = _
  rw [allocDict_dicts_ne _ _ (by simp), allocDict_dicts_self]

theorem mkRelation_dicts_inv (h : Heap) (card : Card) (flag : Bool) :
    (mkRelation h card flag).1.dicts (h.fresh + 1) = ⟨flag, []⟩ := by
  show ((h.allocDict flag).1.allocDict flag).1.dicts (h.fresh + 1) = _
  have hfr : (h.allocDict flag).1.fresh = h.fresh + 1 := rfl
  rw [← hfr, allocDict_dicts_self]

theorem mkRelation_fentries (h : Heap) (card : Card) (flag : Bool) :
    fentries (mkRelation h card flag).1 (mkRelation h card flag).2 = [] := by
  rw [fentries, mkRelation_rel, mkRelation_dicts_fwd]

theorem mkRelation_ientries (h : Heap) (card : Card) (flag : Bool) :
    ientries (mkRelation h card flag).1 (mkRelation h card flag).2 = [] := by
  rw [ientries, mkRelation_rel, mkRelation_dicts_inv]

theorem mkRelation_WF (h : Heap) (card : Card) (flag : Bool) :
    WF (mkRelation h card flag).1 (mkRelation h card flag).2 := by
  have hf := mkRelation_fentries h card flag
  have hi := mkRelation_ientries h card flag
  refine ⟨?_, ?_, ?_, ?_, ?_, ?_, ?_, ?_, ?_, ?_, ?_, ?_⟩
  · rw [mkRelation_rel]
    show h.fresh ≠ h.fresh + 1
    omega
  · rw [mkRelation_rel, mkRelation_fresh]
    show h.fresh < h.fresh + 2
    omega
  · rw [mkRelation_rel, mkRelation_fresh]
    show h.fresh + 1 < h.fresh + 2
    omega
  · rw [hf]; exact List.nodup_nil
  · rw [hi]; exact List.nodup_nil
  · rw [hf, hi]; exact List.nodup_nil
  · intro x hx
    rw [hf, hi] at hx
    simp at hx
  · intro k sx hl
    rw [hf] at hl
    exact absurd hl (by simp [dlookup])
  · intro u sx hl
    rw [hi] at hl
    exact absurd hl (by simp [dlookup])
  · intro k u
    rw [fval_of_none (by rw [hf]; rfl), ival_of_none (by rw [hi]; rfl)]
    simp
  · intro _ k
    rw [fval_of_none (by rw [hf]; rfl)]
    simp
  · intro _ u
    rw [ival_of_none (by rw [hi]; rfl)]
    simp

theorem clear_WF (h : Heap) (r : Relation) :
    WF (clear h r).1 (clear h r).2 :=
  mkRelation_WF h r.cardinality (isordered h r)

theorem applyOp_WF {s : Heap × Relation} (hwf : WF s.1 s.2) (o : Op) :
    WF (applyOp s o).1 (applyOp s o).2 := by
  cases o with
  | setOp dom tgt => exact setitem_WF hwf dom tgt
  | delDomainOp k =>
    show WF (match delitem s.1 s.2 k with
        | some h => (h, s.2) | none => s).1
      (match delitem s.1 s.2 k with
        | some h => (h, s.2) | none => s).2
    rw [delitem]
    rcases hl : s.1.dictLookup s.2.forwardRef k with _ | sx
    · exact hwf
    · exact removeDomain_WF hwf k
  | delRangeOp k =>
    show WF (match delRangeItem s.1 s.2 k with
        | some h => (h, s.2) | none => s).1
      (match delRangeItem s.1 s.2 k with
        | some h => (h, s.2) | none => s).2
    rw [delRangeItem]
    rcases hl : s.1.dictLookup s.2.inverseRef k with _ | sx
    · exact hwf
    · exact removeRange_WF hwf k
  | extendMut a =>
    cases a with
    | notMapping => exact hwf
    | map pairs => exact foldl_setitem_WF pairs hwf
  | clearOp => exact clear_WF s.1 s.2

theorem foldl_applyOp_WF (ops : List Op) {s : Heap × Relation}
    (hwf : WF s.1 s.2) : WF (ops.foldl applyOp s).1 (ops.foldl applyOp s).2 := by
  induction ops generalizing s with
  | nil => exact hwf
  | cons o rest ih => exact ih (applyOp_WF hwf o)

theorem WF_reach (card : Card) (flag : Bool) (ops : List Op) :
    WF (reach card flag ops).1 (reach card flag ops).2 :=
  foldl_applyOp_WF ops (mkRelation_WF initHeap card flag)


/-! ### Cardinality is never reassigned along the public operations -/

theorem applyOp_card (s : Heap × Relation) (o : Op) :
    (applyOp s o).2.cardinality = s.2.cardinality := by
  cases o with
  | setOp dom tgt => rfl
  | delDomainOp k =>
    show (match delitem s.1 s.2 k with
      | some h => (h, s.2) | none => s).2.cardinality = _
    rcases delitem s.1 s.2 k with _ | h2 <;> rfl
  | delRangeOp k =>
    show (match delRangeItem s.1 s.2 k with
      | some h => (h, s.2) | none => s).2.cardinality = _
    rcases delRangeItem s.1 s.2 k with _ | h2 <;> rfl
  | extendMut a => cases a <;> rfl
  | clearOp => rfl

theorem reach_card (card : Card) (flag : Bool) (ops : List Op) :
    (reach card flag ops).2.cardinality = card := by
  rw [reach]
  have hfold : ∀ (s : Heap × Relation) (l : List Op),
      (l.foldl applyOp s).2.cardinality = s.2.cardinality := by
    intro s l
    induction l generalizing s with
    | nil => rfl
    | cons o rest ih => rw [List.foldl_cons, ih, applyOp_card]
  rw [hfold]
  rfl

/-! ### Facts about `copy` -/

theorem copy_sets (h : Heap) (r : Relation) : (copy h r).1.sets = h.sets := rfl

theorem copy_fresh (h : Heap) (r : Relation) : (copy h r).1.fresh = h.fresh + 2 := rfl

theorem copy_rel (h : Heap) (r : Relation) :
    (copy h r).2 = ⟨h.fresh, h.fresh + 1, r.cardinality⟩ := rfl

theorem copy_mk_ne (h : Heap) (r : Relation) :
    (mkRelation h r.cardinality (isordered h r)).2.forwardRef ≠
      (mkRelation h r.cardinality (isordered h r)).2.inverseRef :=
  (Nat.succ_ne_self h.fresh).symm

theorem copy_dicts_lt (h : Heap) (r : Relation) {x : Nat} (hx : x < h.fresh) :
    (copy h r).1.dicts x = h.dicts x := by
  have hne1 : x ≠ (mkRelation h r.cardinality (isordered h r)).2.inverseRef :=
    Nat.ne_of_lt (Nat.lt_succ_of_lt hx)
  have hne2 : x ≠ (mkRelation h r.cardinality (isordered h r)).2.forwardRef :=
    Nat.ne_of_lt hx
  simp only [copy]
  rw [setDict_dicts_ne _ _ hne1, setDict_dicts_ne _ _ hne2,
    mkRelation_dicts_lt _ _ _ hx]

theorem copy_fentries_self {h : Heap} {r : Relation} (hfr : r.forwardRef < h.fresh) :
    fentries (copy h r).1 (copy h r).2 = fentries h r := by
  simp only [copy, fentries]
  rw [setDict_dicts_ne _ _ (copy_mk_ne h r), setDict_dicts_self,
    mkRelation_dicts_lt _ _ _ hfr]

theorem copy_ientries_self {h : Heap} {r : Relation} (hir : r.inverseRef < h.fresh) :
    ientries (copy h r).1 (copy h r).2 = ientries h r := by
  have hne2 : r.inverseRef ≠ (mkRelation h r.cardinality
      (isordered h r)).2.forwardRef := Nat.ne_of_lt hir
  simp only [copy, ientries]
  rw [setDict_dicts_self, setDict_dicts_ne _ _ hne2, mkRelation_dicts_lt _ _ _ hir]

theorem copy_isordered (h : Heap) (r : Relation) :
    isordered (copy h r).1 (copy h r).2 = isordered h r := by
  have e : (mkRelation h r.cardinality (isordered h r)).1.dicts
      (mkRelation h r.cardinality (isordered h r)).2.forwardRef =
      ⟨isordered h r, []⟩ := mkRelation_dicts_fwd h _ _
  show ((copy h r).1.dicts (copy h r).2.forwardRef).ordered = isordered h r
  simp only [copy]
  rw [setDict_dicts_ne _ _ (copy_mk_ne h r), setDict_dicts_self, e]

theorem copy_fval_self {h : Heap} {r : Relation} (hfr : r.forwardRef < h.fresh)
    (k : Key) : fval (copy h r).1 (copy h r).2 k = fval h r k := by
  rw [fval, fval, copy_fentries_self hfr, copy_sets]

theorem copy_ival_self {h : Heap} {r : Relation} (hir : r.inverseRef < h.fresh)
    (u : Key) : ival (copy h r).1 (copy h r).2 u = ival h r u := by
  rw [ival, ival, copy_ientries_self hir, copy_sets]

theorem copy_fentries_orig {h : Heap} {r : Relation} (hfr : r.forwardRef < h.fresh) :
    fentries (copy h r).1 r = fentries h r := by
  rw [fentries, copy_dicts_lt h r hfr]
  rfl

theorem copy_ientries_orig {h : Heap} {r : Relation} (hir : r.inverseRef < h.fresh) :
    ientries (copy h r).1 r = ientries h r := by
  rw [ientries, copy_dicts_lt h r hir]
  rfl

theorem copy_WF_orig {h : Heap} {r : Relation} (hwf : WF h r) : WF (copy h r).1 r := by
  have hfe := copy_fentries_orig hwf.fref_lt
  have hie := copy_ientries_orig hwf.iref_lt
  have hfv : ∀ k, fval (copy h r).1 r k = fval h r k := by
    intro k
    rw [fval, fval, hfe, copy_sets]
  have hiv : ∀ u, ival (copy h r).1 r u = ival h r u := by
    intro u
    rw [ival, ival, hie, copy_sets]
  refine ⟨hwf.fneq, ?_, ?_, ?_, ?_, ?_, ?_, ?_, ?_, ?_, ?_, ?_⟩
  · rw [copy_fresh]
    exact Nat.lt_succ_of_lt (Nat.lt_succ_of_lt hwf.fref_lt)
  · rw [copy_fresh]
    exact Nat.lt_succ_of_lt (Nat.lt_succ_of_lt hwf.iref_lt)
  · rw [hfe]; exact hwf.keysF
  · rw [hie]; exact hwf.keysI
  · rw [hfe, hie]; exact hwf.srefsND
  · intro x hx
    rw [hfe, hie] at hx
    rw [copy_fresh]
    exact Nat.lt_succ_of_lt (Nat.lt_succ_of_lt (hwf.srefs_lt x hx))
  · intro k s hl
    rw [hfe] at hl
    rw [copy_sets]
    exact hwf.nonemptyF k s hl
  · intro u s hl
    rw [hie] at hl
    rw [copy_sets]
    exact hwf.nonemptyI u s hl
  · intro k u
    rw [hfv, hiv]
    exact hwf.transpose k u
  · intro hc k
    rw [hfv]
    exact hwf.cardF hc k
  · intro hc u
    rw [hiv]
    exact hwf.cardI hc u

/-! ### Dictionaries other than the two indices are untouched by insertion -/

theorem addTo_dicts_other (h : Heap) (dref : Nat) (k v : Key) {x : Nat}
    (hx : x ≠ dref) : (addTo h dref k v).dicts x = h.dicts x := by
  rcases hl : dlookup (h.dicts dref).entries k with _ | s
  · exact addTo_none_dicts_ne v hl hx
  · rw [addTo_some v hl]
    rfl

theorem insertPhase_dicts_other (h : Heap) (r : Relation) (d t : Key) {x : Nat}
    (hxf : x ≠ r.forwardRef) (hxi : x ≠ r.inverseRef) :
    (insertPhase h r d t).dicts x = h.dicts x := by
  rw [insertPhase_eq_addTo, addTo_dicts_other _ _ _ _ hxi, addTo_dicts_other _ _ _ _ hxf]


/-! ### The claims -/

/-- Claim C1: for every Relation constructed with a valid cardinality and
mutated only through the public operations (insert via set,
remove-by-domain-key, remove-by-range-key, extend, clear), after every
successful operation the transpose invariant holds — `t ∈ forward[d]` iff
`d ∈ inverse[t]` — and no key of `forward` or `inverse` maps to an empty
set.  (Every prefix of `ops` is itself an `ops` list, so the statement
quantifying over all operation lists covers the state after every
operation.) -/
theorem claim_C1_transpose_invariant (card : Card) (flag : Bool) (ops : List Op) :
    (∀ d t, t ∈ fval (reach card flag ops).1 (reach card flag ops).2 d ↔
      d ∈ ival (reach card flag ops).1 (reach card flag ops).2 t) ∧
    (∀ k s, dlookup (fentries (reach card flag ops).1 (reach card flag ops).2) k =
      some s → (reach card flag ops).1.sets s ≠ ∅) ∧
    (∀ u s, dlookup (ientries (reach card flag ops).1 (reach card flag ops).2) u =
      some s → (reach card flag ops).1.sets s ≠ ∅) :=
  ⟨(WF_reach card flag ops).transpose, (WF_reach card flag ops).nonemptyF,
    (WF_reach card flag ops).nonemptyI⟩

/-- Claim C3: for a Relation whose cardinality is `1:1` or `M:1`, fixed at
construction, after every sequence of public operations each value set stored
in `forward` has at most one element; symmetrically, under `1:1` or `1:M`
each value set stored in `inverse` has at most one element. -/
theorem claim_C3_single_valued (flag : Bool) (ops : List Op) :
    (∀ d, (fval (reach .oneOne flag ops).1 (reach .oneOne flag ops).2 d).card ≤ 1) ∧
    (∀ d, (fval (reach .manyOne flag ops).1 (reach .manyOne flag ops).2 d).card ≤ 1) ∧
    (∀ t, (ival (reach .oneOne flag ops).1 (reach .oneOne flag ops).2 t).card ≤ 1) ∧
    (∀ t, (ival (reach .oneMany flag ops).1 (reach .oneMany flag ops).2 t).card ≤ 1) :=
  ⟨(WF_reach .oneOne flag ops).cardF (Or.inl (reach_card _ _ _)),
    (WF_reach .manyOne flag ops).cardF (Or.inr (reach_card _ _ _)),
    (WF_reach .oneOne flag ops).cardI (Or.inl (reach_card _ _ _)),
    (WF_reach .oneMany flag ops).cardI (Or.inr (reach_card _ _ _))⟩

/-- Claim C9: `extend` fails with `RelationError` when its argument is not a
`Mapping`, and in that case the relation's state is completely unchanged (the
`isinstance` check precedes any mutation); otherwise it performs the standard
insert for every key/value pair of the external mapping, in order, and
returns the relation itself. -/
theorem claim_C9_extend (h : Heap) (r : Relation) :
    (extend h r .notMapping = .error h) ∧
    (applyOp (h, r) (.extendMut .notMapping) = (h, r)) ∧
    (∀ pairs : List (Key × Key),
      extend h r (.map pairs) =
        .ok (pairs.foldl (fun hh p => setPair hh r p.1 p.2) h, r)) := by
  refine ⟨rfl, rfl, fun pairs => ?_⟩
  have hfun : (fun (hh : Heap) (p : Key × Key) =>
      setitem hh r (.one p.1) (.one p.2)) = fun hh p => setPair hh r p.1 p.2 := by
    funext hh p
    rfl
  rw [extend, hfun]

theorem foldl_setPair_fval_mn {h : Heap} {r : Relation} (hwf : WF h r)
    (hc : r.cardinality = .manyMany) (d : Key) (ts : List Key) :
    fval (ts.foldl (fun hh t2 => setPair hh r d t2) h) r d =
      fval h r d ∪ ts.toFinset := by
  induction ts generalizing h with
  | nil => simp
  | cons t2 rest ih =>
    rw [List.foldl_cons, ih (setPair_WF hwf d t2)]
    rw [setPair_of_manyMany hc, insertPhase_fval hwf d t2 d, if_pos rfl]
    rw [List.toFinset_cons, Finset.insert_union, Finset.union_insert]

/-- Claim C7: under `M:N` cardinality insertion never evicts — setting
`(d, t)` adds `t` to `forward[d]` and `d` to `inverse[t]` and removes
nothing — so for a fixed domain key `d`, `forward[d]` grows monotonically
under insertions, and starting from a state where `d` is absent its size
after inserting a list of range values equals the number of distinct values
inserted. -/
theorem claim_C7_mn_additive {h : Heap} {r : Relation} (hwf : WF h r)
    (hc : r.cardinality = .manyMany) (d t : Key) :
    (∀ k, fval (setPair h r d t) r k =
        if k = d then insert t (fval h r d) else fval h r k) ∧
    (∀ u, ival (setPair h r d t) r u =
        if u = t then insert d (ival h r t) else ival h r u) ∧
    fval h r d ⊆ fval (setPair h r d t) r d ∧
    (∀ ts : List Key, fval (ts.foldl (fun hh t2 => setPair hh r d t2) h) r d =
      fval h r d ∪ ts.toFinset) ∧
    (dlookup (fentries h r) d = none → ∀ ts : List Key,
      (fval (ts.foldl (fun hh t2 => setPair hh r d t2) h) r d).card =
        ts.toFinset.card) := by
  refine ⟨?_, ?_, ?_, fun ts => foldl_setPair_fval_mn hwf hc d ts, ?_⟩
  · intro k
    rw [setPair_of_manyMany hc]
    exact insertPhase_fval hwf d t k
  · intro u
    rw [setPair_of_manyMany hc]
    exact insertPhase_ival hwf d t u
  · rw [setPair_of_manyMany hc, insertPhase_fval hwf d t d, if_pos rfl]
    exact Finset.subset_insert t _
  · intro habs ts
    rw [foldl_setPair_fval_mn hwf hc d ts, fval_of_none habs, Finset.empty_union]

/-- Witness for claim C7 at a concrete relation: inserting the values
`[1, 2, 1]` for the absent domain key `0` of an empty `M:N` relation yields
`forward[0] = {1, 2}`. -/
theorem claim_C7_witness :
    fval (([1, 2, 1] : List Key).foldl
        (fun hh t2 => setPair hh (reach .manyMany false []).2 0 t2)
        (reach .manyMany false []).1)
      (reach .manyMany false []).2 0 =
      fval (reach .manyMany false []).1 (reach .manyMany false []).2 0 ∪
        ([1, 2, 1] : List Key).toFinset :=
  (claim_C7_mn_additive (WF_reach .manyMany false []) (by decide) 0 1).2.2.2.1 [1, 2, 1]


/-- Claim C5: `__getitem__` fails with `KeyError` iff the domain key is
absent from `forward`; when present, for `1:1` and `M:1` it returns a single
range value that is an element of `forward[domainKey]`, and for `1:M` and
`M:N` it returns the full set `forward[domainKey]`. -/
theorem claim_C5_getitem {h : Heap} {r : Relation} (hwf : WF h r) (d : Key) :
    (getitem h r d = none ↔ dlookup (fentries h r) d = none) ∧
    ((r.cardinality = .oneOne ∨ r.cardinality = .manyOne) →
      ∀ s, dlookup (fentries h r) d = some s →
        ∃ t ∈ fval h r d, getitem h r d = some (.single t)) ∧
    ((r.cardinality = .oneMany ∨ r.cardinality = .manyMany) →
      ∀ s, dlookup (fentries h r) d = some s →
        getitem h r d = some (.many (fval h r d))) := by
  have e : getitem h r d =
      match dlookup (fentries h r) d with
      | none => none
      | some s =>
        if r.cardinality = .oneOne ∨ r.cardinality = .manyOne then
          if hne : (h.sets s).Nonempty then some (.single ((h.sets s).min' hne))
          else some .noneVal
        else some (.many (h.sets s)) := rfl
  refine ⟨?_, ?_, ?_⟩
  · rw [e]
    rcases hl : dlookup (fentries h r) d with _ | s
    · simp
    · constructor
      · intro hcon
        exfalso
        revert hcon
        show (if r.cardinality = .oneOne ∨ r.cardinality = .manyOne then
            if hne : (h.sets s).Nonempty then some (GetResult.single ((h.sets s).min' hne))
            else some GetResult.noneVal
          else some (GetResult.many (h.sets s))) = none → False
        split_ifs <;> simp
      · intro hcon
        exact Option.noConfusion hcon
  · intro hc s hl
    have hne : (h.sets s).Nonempty :=
      Finset.nonempty_iff_ne_empty.mpr (hwf.nonemptyF d s hl)
    refine ⟨(h.sets s).min' hne, ?_, ?_⟩
    · rw [fval_of_some hl]
      exact Finset.min'_mem _ _
    · rw [e, hl]
      show (if r.cardinality = .oneOne ∨ r.cardinality = .manyOne then
          if hne2 : (h.sets s).Nonempty then some (GetResult.single ((h.sets s).min' hne2))
          else some GetResult.noneVal
        else some (GetResult.many (h.sets s))) = some (.single ((h.sets s).min' hne))
      rw [if_pos hc]
      rw [dif_pos hne]
  · intro hc s hl
    have hnc : ¬(r.cardinality = .oneOne ∨ r.cardinality = .manyOne) := by
      rcases hc with hc | hc <;> rw [hc] <;> simp
    rw [e, hl]
    show (if r.cardinality = .oneOne ∨ r.cardinality = .manyOne then
        if hne2 : (h.sets s).Nonempty then some (GetResult.single ((h.sets s).min' hne2))
        else some GetResult.noneVal
      else some (GetResult.many (h.sets s))) = some (.many (fval h r d))
    rw [if_neg hnc, fval_of_some hl]

/-- Witness for claim C5 at a concrete relation: on the `M:N` relation
holding the single pairing `(0, 1)`, lookup of `0` returns the full set
`forward[0]`. -/
theorem claim_C5_witness :
    getitem (reach .manyMany false [.setOp (.one 0) (.one 1)]).1
        (reach .manyMany false [.setOp (.one 0) (.one 1)]).2 0 =
      some (.many (fval (reach .manyMany false [.setOp (.one 0) (.one 1)]).1
        (reach .manyMany false [.setOp (.one 0) (.one 1)]).2 0)) :=
  (claim_C5_getitem (WF_reach .manyMany false [.setOp (.one 0) (.one 1)]) 0).2.2
    (Or.inr (by decide)) 2 (by decide)

/-- Claim C6: remove-by-domain-key fails with `KeyError` iff the key is
absent from `forward`, leaving the relation unchanged in that case; when the
key is present and none of its range values are shared with any other domain
key, afterwards the key is absent from `forward` and every one of its range
values is fully absent from `inverse`. -/
theorem claim_C6_remove_domain {h : Heap} {r : Relation} (hwf : WF h r) (d : Key) :
    (delitem h r d = none ↔ dlookup (fentries h r) d = none) ∧
    (dlookup (fentries h r) d = none → applyOp (h, r) (.delDomainOp d) = (h, r)) ∧
    (∀ h2, delitem h r d = some h2 →
      (∀ d2, d2 ≠ d → ∀ t ∈ fval h r d, t ∉ fval h r d2) →
      dlookup (fentries h2 r) d = none ∧
        ∀ t ∈ fval h r d, dlookup (ientries h2 r) t = none) := by
  have e : delitem h r d = match dlookup (fentries h r) d with
      | none => none
      | some _ => some (removeDomain h r d) := rfl
  refine ⟨?_, ?_, ?_⟩
  · rw [e]
    rcases hl : dlookup (fentries h r) d with _ | s
    · simp
    · simp
  · intro hl
    show (match delitem h r d with
      | some hh => (hh, r) | none => (h, r)) = (h, r)
    rw [e, hl]
  · intro h2 hsome hdisj
    rw [e] at hsome
    rcases hl : dlookup (fentries h r) d with _ | s
    · rw [hl] at hsome
      exact Option.noConfusion hsome
    · rw [hl] at hsome
      have hh2 : h2 = removeDomain h r d := by
        injection hsome with hinj
        exact hinj.symm
      subst hh2
      constructor
      · rw [removeDomain_flookup hwf, if_pos rfl]
      · intro t ht
        have hsub : ival h r t ⊆ {d} := by
          intro x hx
          rw [Finset.mem_singleton]
          by_contra hxd
          exact hdisj x hxd t ht ((hwf.transpose x t).mpr hx)
        have hememp : (ival h r t).erase d = ∅ := by
          apply Finset.eq_empty_iff_forall_not_mem.mpr
          intro x hx
          obtain ⟨hxd, hxm⟩ := Finset.mem_erase.mp hx
          exact hxd (Finset.mem_singleton.mp (hsub hxm))
        rcases hit : dlookup (ientries h r) t with _ | st
        · rw [removeDomain_ilookup hwf, hit]
        · rw [removeDomain_ilookup hwf, hit]
          have hst : (h.sets st).erase d = ∅ := by
            rw [show h.sets st = ival h r t from (ival_of_some hit).symm]
            exact hememp
          show (if (h.sets st).erase d = ∅ then none else some st) = none
          rw [if_pos hst]

/-- Witness for claim C6 at a concrete relation: deleting domain key `0` of
the `M:N` relation holding only `(0, 1)` removes `0` from `forward` and `1`
from `inverse`. -/
theorem claim_C6_witness :
    dlookup (fentries (removeDomain (reach .manyMany false [.setOp (.one 0) (.one 1)]).1
        (reach .manyMany false [.setOp (.one 0) (.one 1)]).2 0)
      (reach .manyMany false [.setOp (.one 0) (.one 1)]).2) 0 = none ∧
    ∀ t ∈ fval (reach .manyMany false [.setOp (.one 0) (.one 1)]).1
        (reach .manyMany false [.setOp (.one 0) (.one 1)]).2 0,
      dlookup (ientries (removeDomain (reach .manyMany false [.setOp (.one 0) (.one 1)]).1
          (reach .manyMany false [.setOp (.one 0) (.one 1)]).2 0)
        (reach .manyMany false [.setOp (.one 0) (.one 1)]).2) t = none := by
  have hdisj : ∀ d2, d2 ≠ 0 →
      ∀ t ∈ fval (reach .manyMany false [.setOp (.one 0) (.one 1)]).1
        (reach .manyMany false [.setOp (.one 0) (.one 1)]).2 0,
      t ∉ fval (reach .manyMany false [.setOp (.one 0) (.one 1)]).1
        (reach .manyMany false [.setOp (.one 0) (.one 1)]).2 d2 := by
    intro d2 hd2 t ht hmem
    have he : fentries (reach .manyMany false [.setOp (.one 0) (.one 1)]).1
        (reach .manyMany false [.setOp (.one 0) (.one 1)]).2 = [(0, 2)] := by
      decide
    rw [fval, he] at hmem
    rw [show dlookup [(0, 2)] d2 = none from dlookup_single_ne 2 hd2] at hmem
    simp at hmem
  exact (claim_C6_remove_domain
      (WF_reach .manyMany false [.setOp (.one 0) (.one 1)]) 0).2.2
    (removeDomain (reach .manyMany false [.setOp (.one 0) (.one 1)]).1
      (reach .manyMany false [.setOp (.one 0) (.one 1)]).2 0)
    (by rfl) hdisj


/-- Claim C8: under `1:1` cardinality insertion evicts the domain side fully
before evaluating the range side; consequently re-inserting a pairing
`(d, t)` that is already present (`forward[d] = {t}`) leaves the relation
unchanged — afterwards `forward[d] = {t}`, `inverse[t] = {d}`, and every
other entry is exactly as before the call. -/
theorem claim_C8_one_one_reinsert {h : Heap} {r : Relation} (hwf : WF h r)
    (hc : r.cardinality = .oneOne) (d t : Key) (hdt : fval h r d = {t}) :
    (∀ k, fval (setPair h r d t) r k = fval h r k) ∧
    (∀ u, ival (setPair h r d t) r u = ival h r u) := by
  rcases hl : dlookup (fentries h r) d with _ | s0
  · rw [fval_of_none hl] at hdt
    exact absurd hdt.symm (Finset.singleton_ne_empty t)
  have hdmem : d ∈ ival h r t := (hwf.transpose d t).mp
    (by rw [hdt]; exact Finset.mem_singleton_self t)
  have hival : ival h r t = {d} := by
    apply Finset.eq_singleton_iff_unique_mem.mpr
    exact ⟨hdmem, fun x hx =>
      Finset.card_le_one.mp (hwf.cardI (Or.inl hc) t) x hx d hdmem⟩
  have hwf1 : WF (removeDomain h r d) r := removeDomain_WF hwf d
  have hil1 : dlookup (ientries (removeDomain h r d) r) t = none := by
    have hiv1 : ival (removeDomain h r d) r t = ∅ := by
      rw [removeDomain_ival hwf, hival]
      simp
    rcases hx : dlookup (ientries (removeDomain h r d) r) t with _ | sx
    · rfl
    · exact absurd (by rw [← ival_of_some hx]; exact hiv1) (hwf1.nonemptyI t sx hx)
  have he : evictPhase h r d t = removeDomain h r d := by
    have hmem : h.dictMem r.forwardRef d = true := by
      rw [dictMem_eq_isSome, hl]
      rfl
    rw [evictPhase]
    split_ifs with hA hB hC
    · exact absurd hB.2 (by rw [dictMemI_eq_isSome, hil1]; simp)
    · rfl
    · exact absurd ⟨Or.inl hc, hmem⟩ hA
    · exact absurd ⟨Or.inl hc, hmem⟩ hA
  rw [setPair_eq, he]
  constructor
  · intro k
    rw [insertPhase_fval hwf1 d t k]
    by_cases hk : k = d
    · subst hk
      rw [if_pos rfl, removeDomain_fval hwf k k, if_pos rfl, hdt]
      simp
    · rw [if_neg hk, removeDomain_fval hwf d k, if_neg hk]
  · intro u
    rw [insertPhase_ival hwf1 d t u]
    by_cases hu : u = t
    · subst hu
      rw [if_pos rfl, removeDomain_ival hwf d u, hival]
      simp
    · rw [if_neg hu, removeDomain_ival hwf d u]
      apply Finset.erase_eq_of_not_mem
      intro hd
      have : u ∈ fval h r d := (hwf.transpose d u).mpr hd
      rw [hdt, Finset.mem_singleton] at this
      exact hu this

/-- Witness for claim C8 at a concrete relation: re-inserting the pairing
`(0, 1)` into the `1:1` relation that already holds exactly `(0, 1)` changes
neither index. -/
theorem claim_C8_witness :
    fval (setPair (reach .oneOne false [.setOp (.one 0) (.one 1)]).1
        (reach .oneOne false [.setOp (.one 0) (.one 1)]).2 0 1)
      (reach .oneOne false [.setOp (.one 0) (.one 1)]).2 0 =
      fval (reach .oneOne false [.setOp (.one 0) (.one 1)]).1
        (reach .oneOne false [.setOp (.one 0) (.one 1)]).2 0 ∧
    ival (setPair (reach .oneOne false [.setOp (.one 0) (.one 1)]).1
        (reach .oneOne false [.setOp (.one 0) (.one 1)]).2 0 1)
      (reach .oneOne false [.setOp (.one 0) (.one 1)]).2 1 =
      ival (reach .oneOne false [.setOp (.one 0) (.one 1)]).1
        (reach .oneOne false [.setOp (.one 0) (.one 1)]).2 1 :=
  ⟨(claim_C8_one_one_reinsert (WF_reach .oneOne false [.setOp (.one 0) (.one 1)])
      (by decide) 0 1 (by decide)).1 0,
    (claim_C8_one_one_reinsert (WF_reach .oneOne false [.setOp (.one 0) (.one 1)])
      (by decide) 0 1 (by decide)).2 1⟩


/-- Claim C4: the cardinality mapping is an involution, and
`invert (invert R)` is structurally equivalent to `R` — it is the very same
triple of forward reference, inverse reference and cardinality, so its
indices are `R`'s own containers (aliasing), its pairings equal `R`'s, and
mutating the double-inverted view is the same heap transformation as
mutating `R`. -/
theorem claim_C4_invert_involution (h : Heap) (r : Relation)
    (hf : r.forwardRef < h.fresh) (hi : r.inverseRef < h.fresh) :
    (invert (invert h r).1 (invert h r).2).2 = r ∧
    (∀ c, INVERTED_CARDINALITY (INVERTED_CARDINALITY c) = c) ∧
    (∀ k, fval (invert (invert h r).1 (invert h r).2).1 r k = fval h r k) ∧
    (∀ u, ival (invert (invert h r).1 (invert h r).2).1 r u = ival h r u) ∧
    (∀ d t, setPair (invert (invert h r).1 (invert h r).2).1
        (invert (invert h r).1 (invert h r).2).2 d t =
      setPair (invert (invert h r).1 (invert h r).2).1 r d t) := by
  have hinv : ∀ c, INVERTED_CARDINALITY (INVERTED_CARDINALITY c) = c := by
    intro c
    cases c <;> rfl
  have hrel : (invert (invert h r).1 (invert h r).2).2 = r := by
    show (⟨r.forwardRef, r.inverseRef,
      INVERTED_CARDINALITY (INVERTED_CARDINALITY r.cardinality)⟩ : Relation) = r
    rw [hinv]
  have hdicts : ∀ x, x < h.fresh →
      (invert (invert h r).1 (invert h r).2).1.dicts x = h.dicts x := by
    intro x hx
    show (mkRelation (mkRelation h (INVERTED_CARDINALITY r.cardinality) false).1
        (INVERTED_CARDINALITY (INVERTED_CARDINALITY r.cardinality)) false).1.dicts x =
      h.dicts x
    rw [mkRelation_dicts_lt _ _ _ (by rw [mkRelation_fresh]; omega),
      mkRelation_dicts_lt _ _ _ hx]
  refine ⟨hrel, hinv, ?_, ?_, fun d t => by rw [hrel]⟩
  · intro k
    rw [fval, fval, fentries, fentries, hdicts r.forwardRef hf]
    rfl
  · intro u
    rw [ival, ival, ientries, ientries, hdicts r.inverseRef hi]
    rfl

/-- Witness for claim C4 at a concrete relation: double inversion of the
`M:N` relation holding `(0, 1)` returns the original relation object state,
and its pairings coincide. -/
theorem claim_C4_witness :
    (invert (invert (reach .manyMany false [.setOp (.one 0) (.one 1)]).1
        (reach .manyMany false [.setOp (.one 0) (.one 1)]).2).1
      (invert (reach .manyMany false [.setOp (.one 0) (.one 1)]).1
        (reach .manyMany false [.setOp (.one 0) (.one 1)]).2).2).2 =
      (reach .manyMany false [.setOp (.one 0) (.one 1)]).2 ∧
    fval (invert (invert (reach .manyMany false [.setOp (.one 0) (.one 1)]).1
          (reach .manyMany false [.setOp (.one 0) (.one 1)]).2).1
        (invert (reach .manyMany false [.setOp (.one 0) (.one 1)]).1
          (reach .manyMany false [.setOp (.one 0) (.one 1)]).2).2).1
      (reach .manyMany false [.setOp (.one 0) (.one 1)]).2 0 =
      fval (reach .manyMany false [.setOp (.one 0) (.one 1)]).1
        (reach .manyMany false [.setOp (.one 0) (.one 1)]).2 0 :=
  ⟨(claim_C4_invert_involution (reach .manyMany false [.setOp (.one 0) (.one 1)]).1
      (reach .manyMany false [.setOp (.one 0) (.one 1)]).2
      (by decide) (by decide)).1,
    (claim_C4_invert_involution (reach .manyMany false [.setOp (.one 0) (.one 1)]).1
      (reach .manyMany false [.setOp (.one 0) (.one 1)]).2
      (by decide) (by decide)).2.2.1 0⟩

/-- Claim C10: calling `clear` on the inverted view `C = invert R` resets
`C` to an empty relation with fresh containers, keeping `C`'s cardinality
and ordering mode, while `R`'s forward and inverse contents are left
entirely unchanged and the two objects no longer share storage. -/
theorem claim_C10_clear_inverted (h : Heap) (r : Relation)
    (hf : r.forwardRef < h.fresh) (hi : r.inverseRef < h.fresh) :
    (∀ k, fval (clear (invert h r).1 (invert h r).2).1 r k = fval h r k) ∧
    (∀ u, ival (clear (invert h r).1 (invert h r).2).1 r u = ival h r u) ∧
    fentries (clear (invert h r).1 (invert h r).2).1
      (clear (invert h r).1 (invert h r).2).2 = [] ∧
    ientries (clear (invert h r).1 (invert h r).2).1
      (clear (invert h r).1 (invert h r).2).2 = [] ∧
    (clear (invert h r).1 (invert h r).2).2.cardinality =
      (invert h r).2.cardinality ∧
    isordered (clear (invert h r).1 (invert h r).2).1
      (clear (invert h r).1 (invert h r).2).2 =
      isordered (invert h r).1 (invert h r).2 ∧
    (clear (invert h r).1 (invert h r).2).2.forwardRef ≠ r.forwardRef ∧
    (clear (invert h r).1 (invert h r).2).2.forwardRef ≠ r.inverseRef ∧
    (clear (invert h r).1 (invert h r).2).2.inverseRef ≠ r.forwardRef ∧
    (clear (invert h r).1 (invert h r).2).2.inverseRef ≠ r.inverseRef := by
  have hdicts : ∀ x, x < h.fresh →
      (clear (invert h r).1 (invert h r).2).1.dicts x = h.dicts x := by
    intro x hx
    show (mkRelation (mkRelation h (INVERTED_CARDINALITY r.cardinality) false).1
        (invert h r).2.cardinality (isordered (invert h r).1 (invert h r).2)).1.dicts x =
      h.dicts x
    rw [mkRelation_dicts_lt _ _ _ (by rw [mkRelation_fresh]; omega),
      mkRelation_dicts_lt _ _ _ hx]
  have hmkord : isordered (clear (invert h r).1 (invert h r).2).1
      (clear (invert h r).1 (invert h r).2).2 =
      isordered (invert h r).1 (invert h r).2 := by
    show ((mkRelation (invert h r).1 (invert h r).2.cardinality
        (isordered (invert h r).1 (invert h r).2)).1.dicts
      (mkRelation (invert h r).1 (invert h r).2.cardinality
        (isordered (invert h r).1 (invert h r).2)).2.forwardRef).ordered =
      isordered (invert h r).1 (invert h r).2
    rw [show (mkRelation (invert h r).1 (invert h r).2.cardinality
        (isordered (invert h r).1 (invert h r).2)).2.forwardRef =
      (invert h r).1.fresh from rfl, mkRelation_dicts_fwd]
  refine ⟨?_, ?_, mkRelation_fentries _ _ _, mkRelation_ientries _ _ _, rfl, hmkord,
    ?_, ?_, ?_, ?_⟩
  · intro k
    rw [fval, fval, fentries, fentries, hdicts r.forwardRef hf]
    rfl
  · intro u
    rw [ival, ival, ientries, ientries, hdicts r.inverseRef hi]
    rfl
  · show (invert h r).1.fresh ≠ r.forwardRef
    rw [show (invert h r).1.fresh = h.fresh + 2 from rfl]
    omega
  · show (invert h r).1.fresh ≠ r.inverseRef
    rw [show (invert h r).1.fresh = h.fresh + 2 from rfl]
    omega
  · show (invert h r).1.fresh + 1 ≠ r.forwardRef
    rw [show (invert h r).1.fresh = h.fresh + 2 from rfl]
    omega
  · show (invert h r).1.fresh + 1 ≠ r.inverseRef
    rw [show (invert h r).1.fresh = h.fresh + 2 from rfl]
    omega

/-- Witness for claim C10 at a concrete relation: clearing the inverted view
of the `M:N` relation holding `(0, 1)` empties the view while the original
relation still holds `forward[0]` unchanged. -/
theorem claim_C10_witness :
    fentries (clear (invert (reach .manyMany false [.setOp (.one 0) (.one 1)]).1
          (reach .manyMany false [.setOp (.one 0) (.one 1)]).2).1
        (invert (reach .manyMany false [.setOp (.one 0) (.one 1)]).1
          (reach .manyMany false [.setOp (.one 0) (.one 1)]).2).2).1
      (clear (invert (reach .manyMany false [.setOp (.one 0) (.one 1)]).1
          (reach .manyMany false [.setOp (.one 0) (.one 1)]).2).1
        (invert (reach .manyMany false [.setOp (.one 0) (.one 1)]).1
          (reach .manyMany false [.setOp (.one 0) (.one 1)]).2).2).2 = [] ∧
    fval (clear (invert (reach .manyMany false [.setOp (.one 0) (.one 1)]).1
          (reach .manyMany false [.setOp (.one 0) (.one 1)]).2).1
        (invert (reach .manyMany false [.setOp (.one 0) (.one 1)]).1
          (reach .manyMany false [.setOp (.one 0) (.one 1)]).2).2).1
      (reach .manyMany false [.setOp (.one 0) (.one 1)]).2 0 =
      fval (reach .manyMany false [.setOp (.one 0) (.one 1)]).1
        (reach .manyMany false [.setOp (.one 0) (.one 1)]).2 0 :=
  ⟨(claim_C10_clear_inverted (reach .manyMany false [.setOp (.one 0) (.one 1)]).1
      (reach .manyMany false [.setOp (.one 0) (.one 1)]).2
      (by decide) (by decide)).2.2.1,
    (claim_C10_clear_inverted (reach .manyMany false [.setOp (.one 0) (.one 1)]).1
      (reach .manyMany false [.setOp (.one 0) (.one 1)]).2
      (by decide) (by decide)).1 0⟩


/-- Counterexample to claim C2 as stated: after `C = R.copy()` on the `M:N`
relation `R` holding `(0, 1)`, the subsequent insertion `R[0] = 2` mutates
the set object shared between `R.forward[0]` and `C.forward[0]`, so `C`'s
contents change — they are not independent. -/
theorem claim_C2_counterexample :
    ¬(fval (setPair (copy (reach .manyMany false [.setOp (.one 0) (.one 1)]).1
          (reach .manyMany false [.setOp (.one 0) (.one 1)]).2).1
        (reach .manyMany false [.setOp (.one 0) (.one 1)]).2 0 2)
      (copy (reach .manyMany false [.setOp (.one 0) (.one 1)]).1
        (reach .manyMany false [.setOp (.one 0) (.one 1)]).2).2 0 =
     fval (copy (reach .manyMany false [.setOp (.one 0) (.one 1)]).1
        (reach .manyMany false [.setOp (.one 0) (.one 1)]).2).1
      (copy (reach .manyMany false [.setOp (.one 0) (.one 1)]).1
        (reach .manyMany false [.setOp (.one 0) (.one 1)]).2).2 0) := by
  decide

/-- Claim C2 as amended: after `C = R.copy()`, `C` has the same cardinality,
ordering mode and pairings as `R`, and the two outer dictionaries of `C` are
new containers distinct from `R`'s; however the nested value sets are
*shared* (the copy is one-level), so under `M:N` an insertion on `R` that
adds a range value to an existing domain key is visible through `C`. -/
theorem claim_C2_copy_shallow {h : Heap} {r : Relation} (hwf : WF h r) :
    (copy h r).2.cardinality = r.cardinality ∧
    isordered (copy h r).1 (copy h r).2 = isordered h r ∧
    fentries (copy h r).1 (copy h r).2 = fentries h r ∧
    ientries (copy h r).1 (copy h r).2 = ientries h r ∧
    (∀ k, fval (copy h r).1 (copy h r).2 k = fval h r k) ∧
    (∀ u, ival (copy h r).1 (copy h r).2 u = ival h r u) ∧
    (copy h r).2.forwardRef ≠ r.forwardRef ∧
    (copy h r).2.forwardRef ≠ r.inverseRef ∧
    (copy h r).2.inverseRef ≠ r.forwardRef ∧
    (copy h r).2.inverseRef ≠ r.inverseRef ∧
    (r.cardinality = .manyMany →
      ∀ d t s, dlookup (fentries h r) d = some s →
        fval (setPair (copy h r).1 r d t) (copy h r).2 d =
          insert t (fval (copy h r).1 (copy h r).2 d)) := by
  refine ⟨rfl, copy_isordered h r, copy_fentries_self hwf.fref_lt,
    copy_ientries_self hwf.iref_lt, copy_fval_self hwf.fref_lt,
    copy_ival_self hwf.iref_lt,
    (Nat.ne_of_lt hwf.fref_lt).symm,
    (Nat.ne_of_lt hwf.iref_lt).symm,
    (Nat.ne_of_lt (Nat.lt_succ_of_lt hwf.fref_lt)).symm,
    (Nat.ne_of_lt (Nat.lt_succ_of_lt hwf.iref_lt)).symm, ?_⟩
  intro hc d t s hs
  have hwf1 : WF (copy h r).1 r := copy_WF_orig hwf
  have hs1 : dlookup (fentries (copy h r).1 r) d = some s := by
    rw [copy_fentries_orig hwf.fref_lt]
    exact hs
  have hXd : (setPair (copy h r).1 r d t).dicts h.fresh =
      (copy h r).1.dicts h.fresh := by
    rw [setPair_of_manyMany hc]
    exact insertPhase_dicts_other _ _ _ _ (Nat.ne_of_lt hwf.fref_lt).symm
      (Nat.ne_of_lt hwf.iref_lt).symm
  have hfXc : fentries (setPair (copy h r).1 r d t) (copy h r).2 = fentries h r := by
    have hcopy := copy_fentries_self hwf.fref_lt
    rw [fentries, show (copy h r).2.forwardRef = h.fresh from rfl] at hcopy ⊢
    rw [hXd]
    exact hcopy
  have hfvX : fval (setPair (copy h r).1 r d t) (copy h r).2 d =
      (setPair (copy h r).1 r d t).sets s :=
    fval_of_some (by rw [hfXc]; exact hs)
  have hfXr : fentries (setPair (copy h r).1 r d t) r =
      fentries (copy h r).1 r := by
    rw [setPair_of_manyMany hc, insertPhase_fentries hwf1 d t, hs1]
    simp
  have hfvXr : fval (setPair (copy h r).1 r d t) r d =
      (setPair (copy h r).1 r d t).sets s :=
    fval_of_some (by rw [hfXr]; exact hs1)
  have hmain : fval (setPair (copy h r).1 r d t) r d =
      insert t (fval (copy h r).1 r d) := by
    rw [setPair_of_manyMany hc, insertPhase_fval hwf1 d t d, if_pos rfl]
  have hcopyfv : fval (copy h r).1 r d = fval (copy h r).1 (copy h r).2 d := by
    rw [fval_of_some hs1, fval_of_some
      (show dlookup (fentries (copy h r).1 (copy h r).2) d = some s by
        rw [copy_fentries_self hwf.fref_lt]; exact hs)]
  rw [hfvX, ← hfvXr, hmain, hcopyfv]

/-- Witness for the amended claim C2 at a concrete relation: the copy of the
`M:N` relation holding `(0, 1)` sees the insertion `R[0] = 2` through the
shared value set. -/
theorem claim_C2_witness :
    fval (setPair (copy (reach .manyMany false [.setOp (.one 0) (.one 1)]).1
          (reach .manyMany false [.setOp (.one 0) (.one 1)]).2).1
        (reach .manyMany false [.setOp (.one 0) (.one 1)]).2 0 2)
      (copy (reach .manyMany false [.setOp (.one 0) (.one 1)]).1
        (reach .manyMany false [.setOp (.one 0) (.one 1)]).2).2 0 =
      insert 2 (fval (copy (reach .manyMany false [.setOp (.one 0) (.one 1)]).1
          (reach .manyMany false [.setOp (.one 0) (.one 1)]).2).1
        (copy (reach .manyMany false [.setOp (.one 0) (.one 1)]).1
          (reach .manyMany false [.setOp (.one 0) (.one 1)]).2).2 0) :=
  (claim_C2_copy_shallow
      (WF_reach .manyMany false [.setOp (.one 0) (.one 1)])).2.2.2.2.2.2.2.2.2.2
    (by decide) 0 2 2 (by decide)

end Relate
